import Mathlib

/-!
Verification development for the extraction deduplication & insight
synthesis engine of the POC_Google_Langextract repository.

The definitions below are a shallow embedding of the Python sources:

* `app/services/extractor.py` — `_merge_attributes`,
  `_deduplicate_extractions`, `_chunk_and_extract` and the length guard
  of `extract_insights`;
* `app/templates/extraction_templates.py` — the template registry and
  `get_template`;
* `app/services/report_generator.py` — `_generate_executive_summary`,
  `_generate_key_insights`, `_get_category_order` and the grouping /
  sorting logic of `generate_pdf_report`;
* `app/api/routes/analyze.py` — `_generate_summary`.

Python `dict`s are modelled as insertion-ordered association lists
(Python dictionaries preserve insertion order); Python `set`s of strings
are modelled as duplicate-free lists (their internal order is irrelevant
here because the code only consumes them through `sorted`).  Scalar
attribute values are modelled by the closed sum `AttrVal`.  Document
type tags are strings, because `DocumentType` is a `str` enum whose
members compare and hash equal to their string values.
-/

/-- Scalar attribute value: the Python code stores strings, ints and
booleans in attribute maps (`mention_count` is an int). -/
inductive AttrVal where
  | str (s : String)
  | int (n : Int)
  | bool (b : Bool)
deriving DecidableEq, Repr

/-- Python truthiness of a scalar attribute value (`if value:`). -/
def AttrVal.truthy : AttrVal → Bool
  | .str s => s ≠ ""
  | .int n => n ≠ 0
  | .bool b => b

/-- Python `str(value)` for a scalar attribute value. -/
def AttrVal.pyStr : AttrVal → String
  | .str s => s
  | .int n => toString n
  | .bool b => if b then "True" else "False"

/-- An attribute dictionary: insertion-ordered association list. -/
abbrev AttrDict : Type := List (String × AttrVal)

/-- The `attributes` field of a raw extraction: it may be `None`, a
dict, or (defensively handled by the code) some non-dict value. -/
inductive PyAttrs where
  | pyNone
  | nonDict
  | dict (d : AttrDict)
deriving DecidableEq

/-- One extraction record (langextract `Extraction`): class label,
literal text span, attributes. -/
structure Extraction where
  extraction_class : String
  extraction_text : String
  attributes : PyAttrs
deriving DecidableEq

/-- First-match association-list lookup, the model of Python dict
indexing / `dict.get`. -/
def lookupA {β : Type} : List (String × β) → String → Option β
  | [], _ => none
  | p :: rest, k => if p.1 = k then some p.2 else lookupA rest k

/-- Membership test on dict keys (`key in merged`). -/
def hasKey {β : Type} (m : List (String × β)) (k : String) : Bool :=
  (lookupA m k).isSome

/-- Model of `if key not in merged: merged[key] = value`: insert at the
end when the key is absent, otherwise leave the dict unchanged. -/
def insertIfAbsent {β : Type} (m : List (String × β)) (k : String) (v : β) :
    List (String × β) :=
  if hasKey m k then m else m ++ [(k, v)]

/-- Model of `merged[key] = value` on a dict that may already hold the
key: update in place (Python keeps the original position), else append. -/
def insertOrUpdate {β : Type} : List (String × β) → String → β → List (String × β)
  | [], k, v => [(k, v)]
  | p :: rest, k, v =>
      if p.1 = k then (k, v) :: rest else p :: insertOrUpdate rest k v

/-- Add a string to a per-key value set (`value_sets[key].add(str(value))`):
the set is modelled as a duplicate-free list. -/
def setAdd : List (String × List String) → String → String → List (String × List String)
  | [], k, s => [(k, [s])]
  | p :: rest, k, s =>
      if p.1 = k then (p.1, if s ∈ p.2 then p.2 else p.2 ++ [s]) :: rest
      else p :: setAdd rest k s

/-- Ascending insertion into a Bool-sorted list; building block of the
stable-sort model of Python's `sorted`. -/
def ordInsert {α : Type} (r : α → α → Bool) (a : α) : List α → List α
  | [] => [a]
  | b :: l => if r a b then a :: b :: l else b :: ordInsert r a l

/-- Stable sort modelling Python's `sorted` with comparator `r`
(true = "goes no later than"). -/
def stableSort {α : Type} (r : α → α → Bool) : List α → List α
  | [] => []
  | a :: l => ordInsert r a (stableSort r l)

/-- Lexicographic code-point comparison of character lists; this is the
order Python uses to compare strings. -/
def charListLe : List Char → List Char → Bool
  | [], _ => true
  | _ :: _, [] => false
  | a :: as, b :: bs => if a = b then charListLe as bs else decide (a.toNat < b.toNat)

/-- Python string comparison `a <= b` (lexicographic on code points). -/
def strLe (a b : String) : Bool := charListLe a.data b.data

/-- Python `sorted` on a list of strings (ascending lexicographic). -/
def sortStrings (l : List String) : List String :=
  stableSort strLe l

/-- Python `", ".join(...)`. -/
def joinComma (l : List String) : String :=
  String.intercalate ", " l

/-- First loop of `_merge_attributes` restricted to its effect on
`merged`: for every entry of every map (in order), set the key only if
it is not yet present.  (In the source the `merged` and `value_sets`
updates live in one loop but never interact, so they are modelled as
two folds over the same entry stream.) -/
def mergeFirstPass (all_attributes : List AttrDict) : AttrDict :=
  all_attributes.foldl
    (fun m attrs => attrs.foldl (fun m kv => insertIfAbsent m kv.1 kv.2) m) []

/-- First loop of `_merge_attributes` restricted to its effect on
`value_sets`: collect, per key, the set of `str(value)` for truthy
values, in a dict keyed in first-truthy-occurrence order. -/
def valueSets (all_attributes : List AttrDict) : List (String × List String) :=
  all_attributes.foldl
    (fun vs attrs =>
      attrs.foldl
        (fun vs kv => if kv.2.truthy then setAdd vs kv.1 kv.2.pyStr else vs) vs) []

/-- Second loop of `_merge_attributes`: for every key with more than
one distinct collected value, write the companion
`<key>_variations` entry holding the sorted comma-joined values. -/
def addVariations (vs : List (String × List String)) (m : AttrDict) : AttrDict :=
  vs.foldl
    (fun m kv =>
      if kv.2.length > 1 then
        insertOrUpdate m (kv.1 ++ "_variations") (.str (joinComma (sortStrings kv.2)))
      else m) m

/-- `_merge_attributes` from `app/services/extractor.py`. -/
def mergeAttributes (all_attributes : List AttrDict) : AttrDict :=
  if all_attributes = [] then []
  else addVariations (valueSets all_attributes) (mergeFirstPass all_attributes)

/-- Python whitespace test used by `str.strip()`. -/
def isPySpace (c : Char) : Bool :=
  c = ' ' ∨ c = '\t' ∨ c = '\n' ∨ c = '\r' ∨ c = '\x0b' ∨ c = '\x0c'

/-- ASCII case folding of one character (Python `str.lower()`; the
documents processed here are ASCII, and the claims depend only on the
case-insensitivity of the fold, not on Unicode tables). -/
def pyLowerChar (c : Char) : Char :=
  if 65 ≤ c.toNat ∧ c.toNat ≤ 90 then Char.ofNat (c.toNat + 32) else c

/-- Python `str.strip()` on the character list: drop leading and
trailing whitespace. -/
def stripChars (l : List Char) : List Char :=
  ((l.dropWhile isPySpace).reverse.dropWhile isPySpace).reverse

/-- Python `text.strip().lower()`. -/
def pyNormText (s : String) : String :=
  ⟨(stripChars s.data).map pyLowerChar⟩

/-- Identity key of an extraction: class (case-sensitive) paired with
the trimmed, case-folded text (`extraction_text.strip().lower()`). -/
def identKey (e : Extraction) : String × String :=
  (e.extraction_class, pyNormText e.extraction_text)

/-- Keys of the `grouped` defaultdict in first-seen order (Python dicts
iterate in insertion order). -/
def firstOccur {α : Type} [DecidableEq α] : List α → List α
  | [] => []
  | a :: l => a :: (firstOccur l).filter (fun b => b ≠ a)

/-- Index of the first occurrence of an element in a list (used to
state first-seen ordering). -/
def firstIdx {α : Type} [DecidableEq α] : List α → α → Nat
  | [], _ => 0
  | b :: t, a => if b = a then 0 else firstIdx t a + 1

/-- The member list of one deduplication group, in stream order. -/
def groupOf (extractions : List Extraction) (k : String × String) : List Extraction :=
  extractions.filter (fun e => identKey e = k)

/-- The attribute-map contribution of one raw extraction:
`if extraction.attributes and isinstance(extraction.attributes, dict)` —
`None`, non-dict and empty-dict attributes contribute nothing. -/
def contribOf (e : Extraction) : Option AttrDict :=
  match e.attributes with
  | .dict d => if d = [] then none else some d
  | _ => none

/-- Build the merged entity of one (nonempty) group: representative is
the first member, attributes are the merge of the group's contributed
maps, plus `mention_count` when the group has more than one member. -/
def mergedForGroup (g : List Extraction) : Option Extraction :=
  match g with
  | [] => none
  | rep :: _ =>
      let count := g.length
      let merged := mergeAttributes (g.filterMap contribOf)
      let merged :=
        if count > 1 then insertOrUpdate merged "mention_count" (.int count) else merged
      some { rep with attributes := .dict merged }

/-- `_deduplicate_extractions` from `app/services/extractor.py`. -/
def deduplicateExtractions (extractions : List Extraction) : List Extraction :=
  (firstOccur (extractions.map identKey)).filterMap
    (fun k => mergedForGroup (groupOf extractions k))

/-- Index of the last space character of a character list (Python
`text.rfind(' ')` returns this index, or -1 when absent). -/
def rfindSpace : List Char → Option Nat
  | [] => none
  | c :: cs =>
      match rfindSpace cs with
      | some j => some (j + 1)
      | none => if c = ' ' then some 0 else none

/-- Python `text[:4000].rfind(' ')` as an integer (-1 when no space). -/
def pyRfindSpace (l : List Char) : Int :=
  match rfindSpace l with
  | some j => (j : Int)
  | none => -1

/-- `_chunk_and_extract` from `app/services/extractor.py` (the text is
modelled as its character list). -/
def chunkAndExtract (text : List Char) : List Char :=
  let chunk_size : Nat := 4000
  if text.length > chunk_size then
    let last_space : Int := pyRfindSpace (text.take chunk_size)
    if last_space > (chunk_size : Int) - 200 then text.take last_space.toNat
    else text.take chunk_size
  else text

/-- The length guard of `extract_insights`: texts longer than 8000
characters are routed through `_chunk_and_extract`. -/
def truncateForExtract (text : List Char) : List Char :=
  if text.length > 8000 then chunkAndExtract text else text

example : mergeAttributes [[("a", .str "x")], [("a", .str "y")]] =
    [("a", .str "x"), ("a_variations", .str "x, y")] := by decide

example : mergeAttributes [[], [("a", .str "x")]] = [("a", .str "x")] := by decide

example : mergeAttributes [] = [] := by decide

/-- Python `s.replace('_', ' ')`. -/
def pyReplaceUnderscore (s : String) : String :=
  ⟨s.data.map (fun c => if c = '_' then ' ' else c)⟩

/-- Helper for `pyTitle`: uppercase a letter that does not follow a
letter, lowercase the others. -/
def titleChars : List Char → Bool → List Char
  | [], _ => []
  | c :: cs, prevAlpha =>
      (if c.isAlpha then (if prevAlpha then c.toLower else c.toUpper) else c) ::
        titleChars cs c.isAlpha

/-- Python `s.title()` (word-initial letters uppercased). -/
def pyTitle (s : String) : String := ⟨titleChars s.data false⟩

/-- Python `s.upper()`. -/
def pyUpper (s : String) : String := s.toUpper

/-- Extraction template (`app/core/schemas.py` `ExtractionTemplate`).
The `examples` field — opaque langextract few-shot objects consumed only
by the external LLM call — is outside the embedded core and omitted. -/
structure ExtractionTemplate where
  prompt_description : String
  extraction_classes : List String
  report_sections : List String
deriving DecidableEq

/-- `STORY_TEMPLATE` of `app/templates/extraction_templates.py`. -/
def STORY_TEMPLATE : ExtractionTemplate :=
  { prompt_description := "Extract key narrative elements from this story in order of appearance.\n    Focus on: characters with their traits, major plot points, themes/morals, and setting details.\n    Use exact text for extractions. Provide meaningful attributes for context."
    extraction_classes := ["character", "plot_point", "theme", "setting", "moral"]
    report_sections := ["Characters", "Plot Summary", "Themes & Morals", "Setting"] }

/-- `MEETING_TEMPLATE` of `app/templates/extraction_templates.py`. -/
def MEETING_TEMPLATE : ExtractionTemplate :=
  { prompt_description := "Extract meeting elements in order of discussion.\n    Focus on: speakers with roles, agenda items, action items with owners, decisions made, and key discussion points.\n    Use exact text. Include deadlines and responsibilities in attributes."
    extraction_classes := ["speaker", "agenda_item", "action_item", "decision", "discussion_point"]
    report_sections := ["Participants", "Agenda", "Decisions", "Action Items", "Key Discussions"] }

/-- `RESEARCH_TEMPLATE` of `app/templates/extraction_templates.py`. -/
def RESEARCH_TEMPLATE : ExtractionTemplate :=
  { prompt_description := "Extract research paper elements systematically.\n    Focus on: authors, research questions, methodology, key findings, conclusions, and important citations.\n    Use exact text. Include statistical data and significance in attributes."
    extraction_classes := ["author", "research_question", "methodology", "finding", "conclusion", "citation"]
    report_sections := ["Authors", "Research Questions", "Methodology", "Key Findings", "Conclusions"] }

/-- `TECHNICAL_TEMPLATE` of `app/templates/extraction_templates.py`. -/
def TECHNICAL_TEMPLATE : ExtractionTemplate :=
  { prompt_description := "Extract technical documentation elements.\n    Focus on: components/modules, APIs/functions, configuration parameters, dependencies, and usage examples.\n    Use exact text. Include technical specifications in attributes."
    extraction_classes := ["component", "function", "parameter", "dependency", "configuration", "example"]
    report_sections := ["Components", "APIs/Functions", "Configuration", "Dependencies", "Usage Examples"] }

/-- `LEGAL_TEMPLATE` of `app/templates/extraction_templates.py`. -/
def LEGAL_TEMPLATE : ExtractionTemplate :=
  { prompt_description := "Extract legal document elements carefully.\n    Focus on: parties involved, key clauses, obligations, dates/deadlines, and important terms.\n    Use exact text. Include legal implications in attributes."
    extraction_classes := ["party", "clause", "obligation", "deadline", "term", "penalty"]
    report_sections := ["Parties", "Key Clauses", "Obligations", "Important Dates", "Terms & Conditions"] }

/-- `GENERAL_TEMPLATE` of `app/templates/extraction_templates.py`. -/
def GENERAL_TEMPLATE : ExtractionTemplate :=
  { prompt_description := "Extract key information from this document.\n    Focus on: main topics, key points, important entities (people, organizations, dates), and significant statements.\n    Use exact text. Provide context in attributes."
    extraction_classes := ["entity", "key_point", "topic", "statement", "date"]
    report_sections := ["Key Topics", "Important Entities", "Main Points", "Significant Statements"] }

/-- The `TEMPLATES` registry, keyed by the document-type tag strings
(`DocumentType` is a `str` enum, so its members are these strings). -/
def TEMPLATES : List (String × ExtractionTemplate) :=
  [("story", STORY_TEMPLATE),
   ("meeting", MEETING_TEMPLATE),
   ("research", RESEARCH_TEMPLATE),
   ("technical", TECHNICAL_TEMPLATE),
   ("legal", LEGAL_TEMPLATE),
   ("general", GENERAL_TEMPLATE)]

/-- `get_template` of `app/templates/extraction_templates.py`:
`TEMPLATES.get(doc_type, GENERAL_TEMPLATE)`. -/
def getTemplate (doc_type : String) : ExtractionTemplate :=
  (lookupA TEMPLATES doc_type).getD GENERAL_TEMPLATE

/-- The `orders` table of `_get_category_order` in
`app/services/report_generator.py`. -/
def categoryOrders : List (String × List (String × Int)) :=
  [("story",
    [("character", 1), ("plot_point", 2), ("theme", 3), ("setting", 4), ("moral", 5)]),
   ("meeting",
    [("speaker", 1), ("decision", 2), ("action_item", 3), ("agenda_item", 4),
     ("discussion_point", 5)]),
   ("research",
    [("author", 1), ("research_question", 2), ("finding", 3), ("methodology", 4),
     ("conclusion", 5), ("citation", 6)]),
   ("technical",
    [("component", 1), ("function", 2), ("parameter", 3), ("configuration", 4),
     ("dependency", 5), ("example", 6)]),
   ("legal",
    [("party", 1), ("obligation", 2), ("clause", 3), ("deadline", 4), ("term", 5),
     ("penalty", 6)]),
   ("general",
    [("entity", 1), ("key_point", 2), ("topic", 3), ("statement", 4), ("date", 5)])]

/-- `_get_category_order` of `app/services/report_generator.py`:
`orders.get(doc_type, {})`. -/
def getCategoryOrder (doc_type : String) : List (String × Int) :=
  (lookupA categoryOrders doc_type).getD []

/-- `category_order.get(cls, 999)`: display priority of a class under a
priority map. -/
def prioOf (order : List (String × Int)) (cls : String) : Int :=
  (lookupA order cls).getD 999

/-- The `grouped` mapping of `generate_pdf_report` /
`_generate_executive_summary`: entities bucketed by class, buckets in
first-encounter order, bucket contents in stream order. -/
def groupByClass (extractions : List Extraction) : List (String × List Extraction) :=
  (firstOccur (extractions.map (fun e => e.extraction_class))).map
    (fun c => (c, extractions.filter (fun e => e.extraction_class = c)))

/-- `(x.attributes or \x7b\x7d).get('mention_count', 1)`, the sort key of the
detailed listing.  In the source a non-integer `mention_count` would
make Python's comparison raise; deduplicated entities always carry an
integer there, and the model returns the default for the impossible
shapes. -/
def mcVal (e : Extraction) : Int :=
  match e.attributes with
  | .dict d =>
      match lookupA d "mention_count" with
      | some (.int n) => n
      | some _ => 1
      | none => 1
  | _ => 1

/-- The detailed-sections construction of `generate_pdf_report`:
classes stably sorted by schema priority (default 999), and inside each
class the entities stably sorted by descending `mention_count`
(default 1).  Python's `sorted` is stable, and with `reverse=True`
equal-key elements also keep their original order; `stableSort` with
the flipped comparator models exactly that. -/
def detailedSections (extractions : List Extraction) (doc_type : String) :
    List (String × List Extraction) :=
  let grouped := groupByClass extractions
  let category_order := getCategoryOrder doc_type
  let sorted_categories :=
    stableSort (fun x y => decide (prioOf category_order x.1 ≤ prioOf category_order y.1))
      grouped
  sorted_categories.map
    (fun p => (p.1, stableSort (fun a b => decide (mcVal b ≤ mcVal a)) p.2))

/-- `ClassificationResult` of `app/core/schemas.py`.  The `confidence`
float enters the report only through fixed percentage renderings
(`:.1%` / `:.0%`); floating point is outside the embedding, so the
rendered percentage text is carried instead. -/
structure ClassificationResult where
  document_type : String
  confidencePct : String
  reasoning : String

/-- `_generate_executive_summary` of `app/services/report_generator.py`
(the unused `document_text` parameter kept for signature fidelity). -/
def generateExecutiveSummary (extractions : List Extraction) (doc_type : String)
    (classification : ClassificationResult) (_document_text : String) : List String :=
  let p1 := "This document has been classified as a <b>" ++ pyUpper doc_type ++
    "</b> with " ++ classification.confidencePct ++ " confidence. " ++
    classification.reasoning
  let grouped := groupByClass extractions
  let count := fun c => ((lookupA grouped c).getD []).length
  let p2 :=
    if doc_type = "story" then
      "The narrative features " ++ toString (count "character") ++
      " main character(s) and explores " ++ toString (count "theme") ++
      " central theme(s). The story presents a compelling narrative with well-defined characters and meaningful themes."
    else if doc_type = "meeting" then
      "The meeting involved " ++ toString (count "speaker") ++
      " participant(s) and resulted in " ++ toString (count "decision") ++
      " key decision(s) with " ++ toString (count "action_item") ++
      " action item(s) identified for follow-up."
    else if doc_type = "research" then
      "This research paper presents " ++ toString (count "finding") ++
      " significant finding(s). The study employs rigorous methodology and contributes valuable insights to the field."
    else if doc_type = "technical" then
      "The technical documentation covers " ++ toString (count "component") ++
      " component(s) and " ++ toString (count "function") ++
      " function(s), providing comprehensive guidance for implementation and usage."
    else if doc_type = "legal" then
      "This legal document involves " ++ toString (count "party") ++
      " party/parties with " ++ toString (count "obligation") ++
      " defined obligation(s). The document establishes clear terms and responsibilities for all parties involved."
    else
      "The document contains " ++ toString extractions.length ++
      " key entities and insights. Analysis reveals important information across multiple categories."
  let p3 := "In total, " ++ toString extractions.length ++
    " unique entities were identified across " ++ toString grouped.length ++
    " categories, providing a comprehensive understanding of the document's content and context."
  [p1, p2, p3]

/-- `_generate_key_insights` of `app/services/report_generator.py`. -/
def generateKeyInsights (grouped : List (String × List Extraction)) : List String :=
  grouped.filterMap (fun p =>
    match p.2 with
    | [] => none
    | x :: rest =>
        let items := x :: rest
        let top_items :=
          (stableSort (fun a b => decide (mcVal b ≤ mcVal a)) items).take 3
        let title := pyTitle (pyReplaceUnderscore p.1)
        if rest = [] then some (title ++ ": " ++ x.extraction_text)
        else if items.length ≤ 3 then
          some (title ++ ": " ++ joinComma (items.map (fun e => e.extraction_text)))
        else
          some (title ++ " (" ++ toString items.length ++ " total): " ++
            joinComma (top_items.map (fun e => e.extraction_text)) ++ ", and others"))

/-- `_generate_summary` of `app/api/routes/analyze.py`. -/
def generateSummary (extractions : List Extraction) (doc_type : String) : String :=
  if extractions = [] then "No significant insights extracted from the document."
  else
    let count_by_class :=
      extractions.foldl
        (fun m e =>
          insertOrUpdate m e.extraction_class
            (((lookupA m e.extraction_class).getD 0) + 1)) ([] : List (String × Nat))
    let parts := ["Analyzed as " ++ pyUpper doc_type ++ " document.",
      "Extracted " ++ toString extractions.length ++ " entities:"] ++
      count_by_class.map (fun p => "• " ++ toString p.2 ++ " " ++ p.1 ++ "(s)")
    String.intercalate " " parts

/-- The attribute dict of a deduplicated entity (total projection; the
deduplicator always writes a `dict`, which the theorems establish). -/
def attrsDict (e : Extraction) : AttrDict :=
  match e.attributes with
  | .dict d => d
  | _ => []

/-- The six key strings of the template registry / order table. -/
def knownDocTypes : List String :=
  ["story", "meeting", "research", "technical", "legal", "general"]

/-- The stream of normalized truthy values observed for one key across
an attribute-map list (used to characterize `valueSets`). -/
def valueStream (all_attributes : List AttrDict) (k : String) : List String :=
  all_attributes.flatMap
    (fun attrs =>
      attrs.filterMap
        (fun kv => if kv.1 = k ∧ kv.2.truthy then some kv.2.pyStr else none))

/-- Set insertion on the duplicate-free list model. -/
def insertNew (ss : List String) (s : String) : List String :=
  if s ∈ ss then ss else ss ++ [s]

/-- The collected value set of one key (`value_sets[key]`, empty when
the key was never added). -/
def valueSetOf (all_attributes : List AttrDict) (k : String) : List String :=
  (lookupA (valueSets all_attributes) k).getD []

/-- A 10000-character text with a newline, but no space, shortly before
position 4000 (counterexample input for the truncation claim). -/
def exNoSpace : List Char :=
  List.replicate 3900 'a' ++ '\n' :: List.replicate 6099 'b'

/-- A 10000-character text whose last space before position 4000 sits
at index 3900 (witness input for the truncation claim). -/
def exSpace : List Char :=
  List.replicate 3900 'a' ++ ' ' :: List.replicate 6099 'b'

/-- Two attribute maps giving key "a" the values "x" and "y". -/
def exMergeA : List AttrDict := [[("a", .str "x")], [("a", .str "y")]]

/-- The same two attribute maps in the opposite order. -/
def exMergeB : List AttrDict := [[("a", .str "y")], [("a", .str "x")]]

/-- Example raw entities: two spellings of one speaker plus a decision. -/
def exSpeaker1 : Extraction := ⟨"speaker", "John", .dict [("role", .str "PM")]⟩

/-- Second mention of the same speaker, different casing and attribute. -/
def exSpeaker2 : Extraction := ⟨"speaker", "john", .dict [("role", .str "Dev")]⟩

/-- A decision entity with no attributes. -/
def exDecision : Extraction := ⟨"decision", "Approve budget", .pyNone⟩

/-- The end-to-end example stream of the specification. -/
def exStream : List Extraction := [exSpeaker1, exSpeaker2, exDecision]

/-- The merged speaker entity produced from `exStream`. -/
def exMergedSpeaker : Extraction :=
  ⟨"speaker", "John",
    .dict [("role", .str "PM"), ("role_variations", .str "Dev, PM"),
           ("mention_count", .int 2)]⟩

/-- A singleton entity whose input attributes already carry a
`mention_count` key. -/
def exMention : Extraction := ⟨"c", "x", .dict [("mention_count", .str "5")]⟩

/-- Entities for the detailed-listing ordering example: a decision
appearing before a twice-mentioned speaker. -/
def exListing : List Extraction :=
  [⟨"decision", "Approve budget", .dict []⟩,
   ⟨"speaker", "John", .dict [("mention_count", .int 2)]⟩]

/-- The speaker bucket of `exListing`'s detailed sections. -/
def exListingSpeakerItems : List Extraction :=
  [⟨"speaker", "John", .dict [("mention_count", .int 2)]⟩]


theorem lookupA_append_of_none {β : Type} {m₁ m₂ : List (String × β)} {k : String}
    (h : lookupA m₁ k = none) : lookupA (m₁ ++ m₂) k = lookupA m₂ k := by
  induction m₁ with
  | nil => rfl
  | cons p rest ih =>
      simp only [lookupA] at h
      by_cases hk : p.1 = k
      · rw [if_pos hk] at h; cases h
      · rw [if_neg hk] at h
        show (if p.1 = k then some p.2 else lookupA (rest ++ m₂) k) = lookupA m₂ k
        rw [if_neg hk]
        exact ih h

theorem lookupA_append_of_some {β : Type} {m₁ m₂ : List (String × β)} {k : String}
    {v : β} (h : lookupA m₁ k = some v) : lookupA (m₁ ++ m₂) k = some v := by
  induction m₁ with
  | nil => cases h
  | cons p rest ih =>
      simp only [lookupA] at h
      show (if p.1 = k then some p.2 else lookupA (rest ++ m₂) k) = some v
      by_cases hk : p.1 = k
      · rw [if_pos hk] at h; rw [if_pos hk]; exact h
      · rw [if_neg hk] at h; rw [if_neg hk]; exact ih h

theorem lookupA_eq_none_iff {β : Type} {m : List (String × β)} {k : String} :
    lookupA m k = none ↔ ∀ p ∈ m, p.1 ≠ k := by
  induction m with
  | nil => simp [lookupA]
  | cons p rest ih =>
      simp only [lookupA]
      by_cases hk : p.1 = k
      · simp [hk]
      · simp [hk, ih]

theorem lookupA_some_mem {β : Type} {m : List (String × β)} {k : String} {v : β}
    (h : lookupA m k = some v) : (k, v) ∈ m := by
  induction m with
  | nil => cases h
  | cons p rest ih =>
      simp only [lookupA] at h
      by_cases hk : p.1 = k
      · rw [if_pos hk] at h
        injection h with hv
        exact List.mem_cons.2 (Or.inl (by cases p; simp_all))
      · rw [if_neg hk] at h
        exact List.mem_cons.2 (Or.inr (ih h))

theorem lookupA_insertOrUpdate_self {β : Type} (m : List (String × β)) (k : String)
    (v : β) : lookupA (insertOrUpdate m k v) k = some v := by
  induction m with
  | nil => simp [insertOrUpdate, lookupA]
  | cons p rest ih =>
      simp only [insertOrUpdate]
      by_cases hk : p.1 = k
      · rw [if_pos hk]; simp [lookupA]
      · rw [if_neg hk]
        simp only [lookupA]
        rw [if_neg hk]
        exact ih

theorem lookupA_insertOrUpdate_ne {β : Type} (m : List (String × β)) {k k' : String}
    (v : β) (h : k' ≠ k) : lookupA (insertOrUpdate m k v) k' = lookupA m k' := by
  induction m with
  | nil => simp [insertOrUpdate, lookupA, Ne.symm h]
  | cons p rest ih =>
      simp only [insertOrUpdate]
      by_cases hk : p.1 = k
      · rw [if_pos hk]
        simp only [lookupA]
        rw [if_neg (Ne.symm h), if_neg (by rw [hk]; exact Ne.symm h)]
      · rw [if_neg hk]
        simp only [lookupA]
        by_cases hk' : p.1 = k'
        · rw [if_pos hk', if_pos hk']
        · rw [if_neg hk', if_neg hk']
          exact ih

theorem hasKey_iff_mem {β : Type} {m : List (String × β)} {k : String} :
    hasKey m k = true ↔ k ∈ m.map Prod.fst := by
  induction m with
  | nil => simp [hasKey, lookupA]
  | cons p rest ih =>
      simp only [hasKey, lookupA] at ih ⊢
      by_cases hk : p.1 = k
      · simp [hk]
      · simp only [if_neg hk, List.map_cons, List.mem_cons]
        rw [ih]
        constructor
        · exact Or.inr
        · rintro (h | h)
          · exact absurd h.symm hk
          · exact h

theorem keys_insertOrUpdate {β : Type} (m : List (String × β)) (k : String) (v : β) :
    (insertOrUpdate m k v).map Prod.fst =
      if k ∈ m.map Prod.fst then m.map Prod.fst else m.map Prod.fst ++ [k] := by
  induction m with
  | nil => simp [insertOrUpdate]
  | cons p rest ih =>
      simp only [insertOrUpdate]
      by_cases hk : p.1 = k
      · rw [if_pos hk]
        simp [hk]
      · rw [if_neg hk]
        simp only [List.map_cons, ih, List.mem_cons]
        by_cases hm : k ∈ rest.map Prod.fst
        · simp [hm, hk, Ne.symm hk]
        · simp [hm, hk, Ne.symm hk]

theorem nodupKeys_insertOrUpdate {β : Type} {m : List (String × β)} (k : String)
    (v : β) (h : (m.map Prod.fst).Nodup) :
    ((insertOrUpdate m k v).map Prod.fst).Nodup := by
  rw [keys_insertOrUpdate]
  by_cases hm : k ∈ m.map Prod.fst
  · simpa [hm] using h
  · rw [if_neg hm]
    exact List.Nodup.append h (List.nodup_singleton k) (by simp [hm])

theorem nodupKeys_insertIfAbsent {β : Type} {m : List (String × β)} (k : String)
    (v : β) (h : (m.map Prod.fst).Nodup) :
    ((insertIfAbsent m k v).map Prod.fst).Nodup := by
  unfold insertIfAbsent
  by_cases hk : hasKey m k
  · simpa [hk] using h
  · have hm : ¬ k ∈ m.map Prod.fst := fun hm => hk (hasKey_iff_mem.2 hm)
    rw [if_neg hk]
    simp only [List.map_append]
    exact List.Nodup.append h (by simp) (by simp [hm])

theorem mem_firstOccur {α : Type} [DecidableEq α] {l : List α} {a : α} :
    a ∈ firstOccur l ↔ a ∈ l := by
  induction l with
  | nil => simp [firstOccur]
  | cons b t ih =>
      simp only [firstOccur, List.mem_cons, List.mem_filter]
      by_cases hab : a = b
      · simp [hab]
      · simp [hab, ih]

theorem firstOccur_nodup {α : Type} [DecidableEq α] (l : List α) :
    (firstOccur l).Nodup := by
  induction l with
  | nil => simp [firstOccur]
  | cons b t ih =>
      simp only [firstOccur, List.nodup_cons]
      refine ⟨fun hb => ?_, ih.filter _⟩
      simp only [List.mem_filter, decide_eq_true_eq] at hb
      exact hb.2 rfl

theorem firstOccur_eq_self {α : Type} [DecidableEq α] {l : List α} (h : l.Nodup) :
    firstOccur l = l := by
  induction l with
  | nil => rfl
  | cons b t ih =>
      simp only [List.nodup_cons] at h
      simp only [firstOccur, ih h.2]
      rw [List.filter_eq_self.2]
      intro a ha
      simp only [decide_eq_true_eq]
      exact fun hab => h.1 (hab ▸ ha)

theorem firstOccur_pairwise_firstIdx {α : Type} [DecidableEq α] (l : List α) :
    (firstOccur l).Pairwise (fun a b => firstIdx l a < firstIdx l b) := by
  induction l with
  | nil => simp [firstOccur]
  | cons c t ih =>
      simp only [firstOccur]
      constructor
      · intro b hb
        simp only [List.mem_filter, decide_eq_true_eq] at hb
        have hbc : b ≠ c := hb.2
        simp only [firstIdx]
        rw [if_pos trivial, if_neg (fun h => hbc h.symm)]
        omega
      · have hp := ih.filter (fun b => decide (b ≠ c))
        refine hp.imp_of_mem ?_
        intro a b ha hb hlt
        simp only [List.mem_filter, decide_eq_true_eq] at ha hb
        simp only [firstIdx]
        rw [if_neg (fun h => ha.2 h.symm), if_neg (fun h => hb.2 h.symm)]
        omega

theorem mem_ordInsert {α : Type} {r : α → α → Bool} {a x : α} {l : List α} :
    x ∈ ordInsert r a l ↔ x = a ∨ x ∈ l := by
  induction l with
  | nil => simp [ordInsert]
  | cons b t ih =>
      simp only [ordInsert]
      by_cases hr : r a b
      · simp [hr, List.mem_cons]
      · rw [if_neg hr]
        simp only [List.mem_cons, ih]
        tauto

theorem perm_ordInsert {α : Type} (r : α → α → Bool) (a : α) (l : List α) :
    (ordInsert r a l).Perm (a :: l) := by
  induction l with
  | nil => simp [ordInsert]
  | cons b t ih =>
      simp only [ordInsert]
      by_cases hr : r a b
      · simp [hr]
      · simp only [hr, if_false]
        exact (ih.cons b).trans (List.Perm.swap a b t)

theorem perm_stableSort {α : Type} (r : α → α → Bool) (l : List α) :
    (stableSort r l).Perm l := by
  induction l with
  | nil => simp [stableSort]
  | cons a t ih =>
      simp only [stableSort]
      exact (perm_ordInsert r a (stableSort r t)).trans (ih.cons a)

theorem pairwise_ordInsert {α : Type} {r : α → α → Bool}
    (htot : ∀ a b, r a b = true ∨ r b a = true)
    (htrans : ∀ a b c, r a b = true → r b c = true → r a c = true)
    (a : α) {l : List α} (h : l.Pairwise (fun x y => r x y = true)) :
    (ordInsert r a l).Pairwise (fun x y => r x y = true) := by
  induction l with
  | nil => simp [ordInsert]
  | cons b t ih =>
      simp only [ordInsert]
      rcases List.pairwise_cons.1 h with ⟨hb, ht⟩
      by_cases hr : r a b
      · rw [if_pos hr]
        refine List.pairwise_cons.2 ⟨?_, h⟩
        intro x hx
        rcases List.mem_cons.1 hx with hxb | hx
        · rw [hxb]; exact hr
        · exact htrans a b x hr (hb x hx)
      · rw [if_neg hr]
        refine List.pairwise_cons.2 ⟨?_, ih ht⟩
        intro x hx
        rcases mem_ordInsert.1 hx with hxa | hx
        · rw [hxa]
          rcases htot a b with h1 | h1
          · exact absurd h1 hr
          · exact h1
        · exact hb x hx

theorem pairwise_stableSort {α : Type} {r : α → α → Bool}
    (htot : ∀ a b, r a b = true ∨ r b a = true)
    (htrans : ∀ a b c, r a b = true → r b c = true → r a c = true)
    (l : List α) : (stableSort r l).Pairwise (fun x y => r x y = true) := by
  induction l with
  | nil => simp [stableSort]
  | cons a t ih =>
      simp only [stableSort]
      exact pairwise_ordInsert htot htrans a ih

theorem filter_key_ordInsert {α γ : Type} [DecidableEq γ] {r : α → α → Bool}
    (kf : α → γ) (hkey : ∀ a b, kf a = kf b → r a b = true) (a : α) (l : List α)
    (v : γ) :
    (ordInsert r a l).filter (fun x => decide (kf x = v)) =
      if kf a = v then a :: l.filter (fun x => decide (kf x = v))
      else l.filter (fun x => decide (kf x = v)) := by
  induction l with
  | nil =>
      simp only [ordInsert]
      by_cases hv : kf a = v
      · simp [hv]
      · simp [hv]
  | cons b t ih =>
      simp only [ordInsert]
      by_cases hr : r a b
      · rw [if_pos hr]
        by_cases hv : kf a = v
        · simp [List.filter_cons, hv]
        · simp [List.filter_cons, hv]
      · rw [if_neg hr]
        have hne : kf a ≠ kf b := fun h => hr (hkey a b h)
        by_cases hv : kf a = v
        · have hbv : ¬ kf b = v := fun h => hne (hv.trans h.symm)
          simp [List.filter_cons, hv, hbv, ih]
        · by_cases hbv : kf b = v
          · simp [List.filter_cons, hv, hbv, ih]
          · simp [List.filter_cons, hv, hbv, ih]

theorem filter_key_stableSort {α γ : Type} [DecidableEq γ] {r : α → α → Bool}
    (kf : α → γ) (hkey : ∀ a b, kf a = kf b → r a b = true) (l : List α) (v : γ) :
    (stableSort r l).filter (fun x => decide (kf x = v)) =
      l.filter (fun x => decide (kf x = v)) := by
  induction l with
  | nil => rfl
  | cons a t ih =>
      simp only [stableSort]
      rw [filter_key_ordInsert kf hkey, ih]
      by_cases hv : kf a = v
      · simp [List.filter_cons, hv]
      · simp [List.filter_cons, hv]

theorem eq_of_perm_of_pairwiseB {α : Type} {r : α → α → Bool}
    (hanti : ∀ a b, r a b = true → r b a = true → a = b) :
    ∀ {l₁ l₂ : List α}, l₁.Perm l₂ → l₁.Pairwise (fun x y => r x y = true) →
      l₂.Pairwise (fun x y => r x y = true) → l₁ = l₂ := by
  intro l₁
  induction l₁ with
  | nil =>
      intro l₂ hp _ _
      exact (hp.nil_eq).symm ▸ rfl
  | cons a t ih =>
      intro l₂ hp h1 h2
      cases l₂ with
      | nil => exact absurd hp.symm (by simp)
      | cons b t₂ =>
          have hab : a = b := by
            have hbmem : b ∈ a :: t := hp.mem_iff.2 (List.mem_cons_self b t₂)
            have hamem : a ∈ b :: t₂ := hp.mem_iff.1 (List.mem_cons_self a t)
            rcases List.mem_cons.1 hbmem with h | hbt
            · exact h.symm
            · rcases List.mem_cons.1 hamem with h | hat
              · exact h
              · exact hanti a b ((List.pairwise_cons.1 h1).1 b hbt)
                  ((List.pairwise_cons.1 h2).1 a hat)
          subst hab
          have hpt : t.Perm t₂ := hp.cons_inv
          rw [ih hpt (List.pairwise_cons.1 h1).2 (List.pairwise_cons.1 h2).2]

theorem charListLe_total : ∀ a b : List Char, charListLe a b = true ∨ charListLe b a = true := by
  intro a
  induction a with
  | nil => intro b; left; rfl
  | cons x xs ih =>
      intro b
      cases b with
      | nil => right; rfl
      | cons y ys =>
          simp only [charListLe]
          by_cases hxy : x = y
          · simp only [hxy, if_pos rfl]
            exact ih ys
          · rw [if_neg hxy, if_neg (Ne.symm hxy)]
            simp only [decide_eq_true_eq]
            have : x.toNat ≠ y.toNat := fun h => hxy (Char.eq_of_val_eq (UInt32.ext h))
            omega

theorem charListLe_trans : ∀ a b c : List Char,
    charListLe a b = true → charListLe b c = true → charListLe a c = true := by
  intro a
  induction a with
  | nil => intro b c _ _; rfl
  | cons x xs ih =>
      intro b c hab hbc
      cases b with
      | nil => simp [charListLe] at hab
      | cons y ys =>
          cases c with
          | nil => simp [charListLe] at hbc
          | cons z zs =>
              simp only [charListLe] at hab hbc ⊢
              by_cases hxy : x = y
              · rw [if_pos hxy] at hab
                by_cases hyz : y = z
                · rw [if_pos hyz] at hbc
                  rw [if_pos (hxy.trans hyz)]
                  exact ih ys zs hab hbc
                · rw [if_neg hyz] at hbc
                  rw [if_neg (hxy ▸ hyz)]
                  rw [hxy]
                  exact hbc
              · rw [if_neg hxy] at hab
                simp only [decide_eq_true_eq] at hab
                by_cases hyz : y = z
                · rw [if_neg (by rw [← hyz]; exact hxy)]
                  simp only [decide_eq_true_eq]
                  rw [← hyz]
                  exact hab
                · rw [if_neg hyz] at hbc
                  simp only [decide_eq_true_eq] at hbc
                  have hxz : x ≠ z := by
                    intro h
                    subst h
                    omega
                  rw [if_neg hxz]
                  simp only [decide_eq_true_eq]
                  omega

theorem charListLe_antisymm : ∀ a b : List Char,
    charListLe a b = true → charListLe b a = true → a = b := by
  intro a
  induction a with
  | nil =>
      intro b _ hba
      cases b with
      | nil => rfl
      | cons y ys => simp [charListLe] at hba
  | cons x xs ih =>
      intro b hab hba
      cases b with
      | nil => simp [charListLe] at hab
      | cons y ys =>
          simp only [charListLe] at hab hba
          by_cases hxy : x = y
          · rw [if_pos hxy] at hab
            rw [if_pos hxy.symm] at hba
            rw [hxy, ih ys hab hba]
          · rw [if_neg hxy] at hab
            rw [if_neg (Ne.symm hxy)] at hba
            simp only [decide_eq_true_eq] at hab hba
            omega

theorem strLe_total (a b : String) : strLe a b = true ∨ strLe b a = true :=
  charListLe_total a.data b.data

theorem strLe_trans (a b c : String) :
    strLe a b = true → strLe b c = true → strLe a c = true :=
  charListLe_trans a.data b.data c.data

theorem strLe_antisymm (a b : String) :
    strLe a b = true → strLe b a = true → a = b := by
  intro hab hba
  cases a with
  | mk la =>
      cases b with
      | mk lb =>
          have := charListLe_antisymm la lb hab hba
          simp_all

theorem strAppend_cancel_right {a b c : String} (h : a ++ c = b ++ c) : a = b := by
  cases a with
  | mk la =>
      cases b with
      | mk lb =>
          cases c with
          | mk lc =>
              have hd : la ++ lc = lb ++ lc := congrArg String.data h
              rw [List.append_cancel_right hd]

theorem lookupA_setAdd_self (vs : List (String × List String)) (k s : String) :
    lookupA (setAdd vs k s) k = some (insertNew ((lookupA vs k).getD []) s) := by
  induction vs with
  | nil => simp [setAdd, lookupA, insertNew]
  | cons p rest ih =>
      simp only [setAdd]
      by_cases hk : p.1 = k
      · rw [if_pos hk]
        simp [lookupA, hk, insertNew]
      · rw [if_neg hk]
        simp only [lookupA, if_neg hk]
        exact ih

theorem lookupA_setAdd_ne (vs : List (String × List String)) {k k' : String}
    (s : String) (h : k' ≠ k) : lookupA (setAdd vs k s) k' = lookupA vs k' := by
  induction vs with
  | nil => simp [setAdd, lookupA, Ne.symm h]
  | cons p rest ih =>
      simp only [setAdd]
      by_cases hk : p.1 = k
      · rw [if_pos hk]
        simp only [lookupA]
        rw [if_neg (hk.trans_ne (Ne.symm h)), if_neg (hk.trans_ne (Ne.symm h))]
      · rw [if_neg hk]
        simp only [lookupA]
        by_cases hk' : p.1 = k'
        · rw [if_pos hk', if_pos hk']
        · rw [if_neg hk', if_neg hk']
          exact ih

theorem keys_setAdd (vs : List (String × List String)) (k s : String) :
    (setAdd vs k s).map Prod.fst =
      if k ∈ vs.map Prod.fst then vs.map Prod.fst else vs.map Prod.fst ++ [k] := by
  induction vs with
  | nil => simp [setAdd]
  | cons p rest ih =>
      simp only [setAdd]
      by_cases hk : p.1 = k
      · rw [if_pos hk]
        simp [hk]
      · rw [if_neg hk]
        simp only [List.map_cons, ih, List.mem_cons]
        by_cases hm : k ∈ rest.map Prod.fst
        · simp [hm, Ne.symm hk]
        · simp [hm, Ne.symm hk]

theorem nodupKeys_setAdd {vs : List (String × List String)} (k s : String)
    (h : (vs.map Prod.fst).Nodup) : ((setAdd vs k s).map Prod.fst).Nodup := by
  rw [keys_setAdd]
  by_cases hm : k ∈ vs.map Prod.fst
  · simpa [hm] using h
  · rw [if_neg hm]
    exact List.Nodup.append h (List.nodup_singleton k) (by simp [hm])

theorem setAdd_fresh {vs : List (String × List String)} {k : String} (s : String)
    (h : ¬ hasKey vs k = true) : setAdd vs k s = vs ++ [(k, [s])] := by
  induction vs with
  | nil => simp [setAdd]
  | cons p rest ih =>
      simp only [hasKey, lookupA] at h
      by_cases hk : p.1 = k
      · rw [if_pos hk] at h
        simp at h
      · rw [if_neg hk] at h
        simp only [setAdd, if_neg hk, List.cons_append, List.cons.injEq, true_and]
        exact ih h

theorem mem_insertNew {ss : List String} {s x : String} :
    x ∈ insertNew ss s ↔ x ∈ ss ∨ x = s := by
  unfold insertNew
  by_cases hm : s ∈ ss
  · simp only [if_pos hm]
    constructor
    · exact Or.inl
    · rintro (h | rfl)
      · exact h
      · exact hm
  · simp [if_neg hm]

theorem nodup_insertNew {ss : List String} (s : String) (h : ss.Nodup) :
    (insertNew ss s).Nodup := by
  unfold insertNew
  by_cases hm : s ∈ ss
  · simpa [hm] using h
  · rw [if_neg hm]
    exact List.Nodup.append h (List.nodup_singleton s) (by simp [hm])

theorem mem_foldl_insertNew {x : String} :
    ∀ (stream : List String) (init : List String),
      x ∈ stream.foldl insertNew init ↔ x ∈ init ∨ x ∈ stream := by
  intro stream
  induction stream with
  | nil => simp
  | cons s t ih =>
      intro init
      simp only [List.foldl_cons, ih, mem_insertNew, List.mem_cons]
      tauto

theorem nodup_foldl_insertNew :
    ∀ (stream : List String) (init : List String), init.Nodup →
      (stream.foldl insertNew init).Nodup := by
  intro stream
  induction stream with
  | nil => intro init h; exact h
  | cons s t ih =>
      intro init h
      exact ih _ (nodup_insertNew s h)

theorem valueFold_lookup (k : String) :
    ∀ (attrs : List (String × AttrVal)) (vs : List (String × List String)),
      (lookupA (attrs.foldl
          (fun vs kv => if kv.2.truthy then setAdd vs kv.1 kv.2.pyStr else vs) vs) k).getD []
        = (attrs.filterMap
            (fun kv => if kv.1 = k ∧ kv.2.truthy then some kv.2.pyStr else none)).foldl
            insertNew ((lookupA vs k).getD []) := by
  intro attrs
  induction attrs with
  | nil => intro vs; rfl
  | cons kv rest ih =>
      intro vs
      simp only [List.foldl_cons, List.filterMap_cons]
      by_cases ht : kv.2.truthy = true
      · by_cases hk : kv.1 = k
        · rw [if_pos ht]
          have hsome : (if kv.1 = k ∧ kv.2.truthy = true then some kv.2.pyStr else none)
              = some kv.2.pyStr := by simp [hk, ht]
          rw [hsome]
          simp only [List.foldl_cons]
          rw [ih]
          congr 1
          subst hk
          rw [lookupA_setAdd_self]
          rfl
        · rw [if_pos ht]
          have hnone : (if kv.1 = k ∧ kv.2.truthy = true then some kv.2.pyStr else none)
              = none := by simp [hk]
          rw [hnone, ih, lookupA_setAdd_ne _ _ (fun h => hk h.symm)]
      · rw [if_neg ht]
        have hnone : (if kv.1 = k ∧ kv.2.truthy = true then some kv.2.pyStr else none)
            = none := by simp [ht]
        rw [hnone, ih]

theorem valueFold_outer (k : String) :
    ∀ (all : List AttrDict) (vs : List (String × List String)),
      (lookupA (all.foldl
          (fun vs attrs => attrs.foldl
            (fun vs kv => if kv.2.truthy then setAdd vs kv.1 kv.2.pyStr else vs) vs) vs)
          k).getD []
        = (all.flatMap (fun attrs => attrs.filterMap
            (fun kv => if kv.1 = k ∧ kv.2.truthy then some kv.2.pyStr else none))).foldl
            insertNew ((lookupA vs k).getD []) := by
  intro all
  induction all with
  | nil => intro vs; rfl
  | cons attrs rest ih =>
      intro vs
      simp only [List.foldl_cons, List.flatMap_cons, List.foldl_append]
      rw [ih, valueFold_lookup]

theorem valueSetOf_eq_foldl (all_attributes : List AttrDict) (k : String) :
    valueSetOf all_attributes k = (valueStream all_attributes k).foldl insertNew [] := by
  have h := valueFold_outer k all_attributes []
  simpa [valueSetOf, valueSets, valueStream] using h

theorem mem_valueSetOf {all_attributes : List AttrDict} {k x : String} :
    x ∈ valueSetOf all_attributes k ↔ x ∈ valueStream all_attributes k := by
  rw [valueSetOf_eq_foldl, mem_foldl_insertNew]
  simp

theorem nodup_valueSetOf (all_attributes : List AttrDict) (k : String) :
    (valueSetOf all_attributes k).Nodup := by
  rw [valueSetOf_eq_foldl]
  exact nodup_foldl_insertNew _ _ (List.nodup_nil)

theorem valueSetOf_perm {all₁ all₂ : List AttrDict} (hp : all₁.Perm all₂) (k : String) :
    (valueSetOf all₁ k).Perm (valueSetOf all₂ k) := by
  refine (List.perm_ext_iff_of_nodup (nodup_valueSetOf _ _) (nodup_valueSetOf _ _)).2 ?_
  intro a
  rw [mem_valueSetOf, mem_valueSetOf]
  exact (hp.flatMap_right _).mem_iff

theorem sortStrings_eq_of_perm {l₁ l₂ : List String} (hp : l₁.Perm l₂) :
    sortStrings l₁ = sortStrings l₂ := by
  refine eq_of_perm_of_pairwiseB strLe_antisymm ?_ ?_ ?_
  · exact ((perm_stableSort strLe l₁).trans hp).trans (perm_stableSort strLe l₂).symm
  · exact pairwise_stableSort strLe_total (fun a b c => strLe_trans a b c) l₁
  · exact pairwise_stableSort strLe_total (fun a b c => strLe_trans a b c) l₂

theorem nodupKeys_valueFold :
    ∀ (attrs : List (String × AttrVal)) (vs : List (String × List String)),
      (vs.map Prod.fst).Nodup →
      (((attrs.foldl
          (fun vs kv => if kv.2.truthy then setAdd vs kv.1 kv.2.pyStr else vs) vs)).map
          Prod.fst).Nodup := by
  intro attrs
  induction attrs with
  | nil => intro vs h; exact h
  | cons kv rest ih =>
      intro vs h
      simp only [List.foldl_cons]
      by_cases ht : kv.2.truthy = true
      · rw [if_pos ht]
        exact ih _ (nodupKeys_setAdd _ _ h)
      · rw [if_neg ht]
        exact ih _ h

theorem nodupKeys_valueSets (all_attributes : List AttrDict) :
    ((valueSets all_attributes).map Prod.fst).Nodup := by
  suffices h : ∀ (all : List AttrDict) (vs : List (String × List String)),
      (vs.map Prod.fst).Nodup →
      ((all.foldl
          (fun vs attrs => attrs.foldl
            (fun vs kv => if kv.2.truthy then setAdd vs kv.1 kv.2.pyStr else vs) vs)
          vs).map Prod.fst).Nodup by
    exact h all_attributes [] (by simp)
  intro all
  induction all with
  | nil => intro vs h; exact h
  | cons attrs rest ih =>
      intro vs h
      simp only [List.foldl_cons]
      exact ih _ (nodupKeys_valueFold attrs vs h)

theorem lookupA_addVariations_ne :
    ∀ (vs : List (String × List String)) (m : AttrDict) (key : String),
      (∀ p ∈ vs, ¬ p.1 ++ "_variations" = key) →
      lookupA (addVariations vs m) key = lookupA m key := by
  intro vs
  induction vs with
  | nil => intro m key _; rfl
  | cons p rest ih =>
      intro m key h
      simp only [addVariations, List.foldl_cons] at ih ⊢
      by_cases hl : p.2.length > 1
      · rw [if_pos hl]
        rw [ih _ _ (fun q hq => h q (List.mem_cons_of_mem p hq))]
        exact lookupA_insertOrUpdate_ne _ _
          (fun hkey => h p (List.mem_cons_self p rest) hkey.symm)
      · rw [if_neg hl]
        exact ih _ _ (fun q hq => h q (List.mem_cons_of_mem p hq))

theorem lookupA_addVariations_hit :
    ∀ (vs : List (String × List String)) (m : AttrDict) (k : String)
      (vals : List String), (vs.map Prod.fst).Nodup → (k, vals) ∈ vs →
      vals.length > 1 →
      lookupA (addVariations vs m) (k ++ "_variations")
        = some (.str (joinComma (sortStrings vals))) := by
  intro vs
  induction vs with
  | nil => intro m k vals _ hmem _; cases hmem
  | cons p rest ih =>
      intro m k vals hnd hmem hlen
      simp only [List.map_cons, List.nodup_cons] at hnd
      rcases List.mem_cons.1 hmem with rfl | hmem
      · simp only [addVariations, List.foldl_cons]
        rw [if_pos hlen]
        have hrest : ∀ q ∈ rest, ¬ q.1 ++ "_variations" = k ++ "_variations" := by
          intro q hq hkey
          have hqk : q.1 = k := strAppend_cancel_right hkey
          have hqmem : q.1 ∈ rest.map Prod.fst := List.mem_map_of_mem Prod.fst hq
          rw [hqk] at hqmem
          exact hnd.1 hqmem
        have hgoal : lookupA (addVariations rest
            (insertOrUpdate m (k ++ "_variations")
              (.str (joinComma (sortStrings vals)))))
            (k ++ "_variations") = some (.str (joinComma (sortStrings vals))) := by
          rw [lookupA_addVariations_ne rest _ _ hrest]
          exact lookupA_insertOrUpdate_self _ _ _
        exact hgoal
      · simp only [addVariations, List.foldl_cons]
        by_cases hl : p.2.length > 1
        · rw [if_pos hl]
          exact ih _ k vals hnd.2 hmem hlen
        · rw [if_neg hl]
          exact ih _ k vals hnd.2 hmem hlen

theorem lookupA_valueSets_of_long {all_attributes : List AttrDict} {k : String}
    (h : (valueSetOf all_attributes k).length > 1) :
    lookupA (valueSets all_attributes) k = some (valueSetOf all_attributes k) := by
  unfold valueSetOf at h ⊢
  cases hv : lookupA (valueSets all_attributes) k with
  | none => simp [hv] at h
  | some vals => simp [hv]

theorem mergeAttributes_variations (all_attributes : List AttrDict) (k : String)
    (h : (valueSetOf all_attributes k).length > 1) :
    lookupA (mergeAttributes all_attributes) (k ++ "_variations")
      = some (.str (joinComma (sortStrings (valueSetOf all_attributes k)))) := by
  have hne : all_attributes ≠ [] := by
    intro he
    subst he
    simp [valueSetOf, valueSets, lookupA] at h
  unfold mergeAttributes
  rw [if_neg hne]
  exact lookupA_addVariations_hit _ _ _ _ (nodupKeys_valueSets _)
    (lookupA_some_mem (lookupA_valueSets_of_long h)) h

/-- C9: variation synthesis is order-independent on sets.  For any two
permutations of the attribute-map list and any key, the collected set
of distinct non-empty values is the same, the sorted comma-joined
variations string is identical, and when that set has more than one
element the merged output holds exactly that string under
`<key>_variations`, independently of the input order. -/
theorem c9_variation_order_independent (all₁ all₂ : List AttrDict)
    (hp : all₁.Perm all₂) (k : String) :
    (∀ s, s ∈ valueSetOf all₁ k ↔ s ∈ valueSetOf all₂ k)
    ∧ sortStrings (valueSetOf all₁ k) = sortStrings (valueSetOf all₂ k)
    ∧ ((valueSetOf all₁ k).length > 1 ↔ (valueSetOf all₂ k).length > 1)
    ∧ ((valueSetOf all₁ k).length > 1 →
        lookupA (mergeAttributes all₁) (k ++ "_variations")
          = some (.str (joinComma (sortStrings (valueSetOf all₁ k))))
        ∧ lookupA (mergeAttributes all₁) (k ++ "_variations")
          = lookupA (mergeAttributes all₂) (k ++ "_variations")) := by
  have hperm := valueSetOf_perm hp k
  have hsort := sortStrings_eq_of_perm hperm
  refine ⟨fun s => hperm.mem_iff, hsort, by rw [hperm.length_eq], ?_⟩
  intro hlen
  have h1 := mergeAttributes_variations all₁ k hlen
  have h2 := mergeAttributes_variations all₂ k (by rw [← hperm.length_eq]; exact hlen)
  exact ⟨h1, by rw [h1, h2, hsort]⟩

/-- Witness for C9 at the concrete pair of attribute maps
`[{"a": "x"}, {"a": "y"}]` versus its reversal. -/
theorem c9_variation_order_independent_witness :
    lookupA (mergeAttributes exMergeA) ("a" ++ "_variations")
      = some (.str (joinComma (sortStrings (valueSetOf exMergeA "a"))))
    ∧ lookupA (mergeAttributes exMergeA) ("a" ++ "_variations")
      = lookupA (mergeAttributes exMergeB) ("a" ++ "_variations") :=
  (c9_variation_order_independent exMergeA exMergeB (List.Perm.swap _ _ _) "a").2.2.2
    (by decide)

/-- C1: the code keeps the first value written for a key even when that
value is empty.  On `[{"a": ""}, {"a": "x"}]` the merged map is
`{"a": ""}` (the claimed behaviour would give `{"a": "x"}`), and on
`[{"a": ""}]` the key appears although no map supplied a non-empty
value. -/
theorem c1_first_value_even_if_empty :
    mergeAttributes [[("a", .str "")], [("a", .str "x")]] = [("a", .str "")]
    ∧ mergeAttributes [[("a", .str "")]] = [("a", .str "")] :=
  ⟨by decide, by decide⟩

theorem hasKey_append {β : Type} (m₁ m₂ : List (String × β)) (k : String) :
    hasKey (m₁ ++ m₂) k = (hasKey m₁ k || hasKey m₂ k) := by
  unfold hasKey
  cases hv : lookupA m₁ k with
  | none => rw [lookupA_append_of_none hv]; simp
  | some v => rw [lookupA_append_of_some hv]; simp

theorem foldl_insertIfAbsent_fresh :
    ∀ (d : List (String × AttrVal)) (m : AttrDict), (d.map Prod.fst).Nodup →
      (∀ p ∈ d, ¬ hasKey m p.1 = true) →
      d.foldl (fun m kv => insertIfAbsent m kv.1 kv.2) m = m ++ d := by
  intro d
  induction d with
  | nil => intro m _ _; simp
  | cons kv rest ih =>
      intro m hnd hfresh
      simp only [List.map_cons, List.nodup_cons] at hnd
      simp only [List.foldl_cons]
      have hstep : insertIfAbsent m kv.1 kv.2 = m ++ [kv] := by
        unfold insertIfAbsent
        rw [if_neg (by simpa using hfresh kv (List.mem_cons_self kv rest))]
      rw [hstep, ih (m ++ [kv]) hnd.2]
      · simp
      · intro q hq
        rw [hasKey_append]
        have h1 : ¬ hasKey m q.1 = true := hfresh q (List.mem_cons_of_mem kv hq)
        have h2 : ¬ hasKey [kv] q.1 = true := by
          intro h
          rw [hasKey_iff_mem] at h
          simp only [List.map_cons, List.map_nil, List.mem_singleton] at h
          exact hnd.1 (h ▸ List.mem_map_of_mem Prod.fst hq)
        simp [h1, h2]

theorem mergeFirstPass_single {d : AttrDict} (hnd : (d.map Prod.fst).Nodup) :
    mergeFirstPass [d] = d := by
  unfold mergeFirstPass
  simp only [List.foldl_cons, List.foldl_nil]
  rw [foldl_insertIfAbsent_fresh d [] hnd (by intro p _; simp [hasKey, lookupA])]
  simp

theorem valueFold_single_short :
    ∀ (d : List (String × AttrVal)) (vs : List (String × List String)),
      (d.map Prod.fst).Nodup → (∀ p ∈ vs, p.2.length ≤ 1) →
      (∀ p ∈ d, ¬ hasKey vs p.1 = true) →
      ∀ q ∈ d.foldl
        (fun vs kv => if kv.2.truthy then setAdd vs kv.1 kv.2.pyStr else vs) vs,
        q.2.length ≤ 1 := by
  intro d
  induction d with
  | nil => intro vs _ hvs _ q hq; exact hvs q hq
  | cons kv rest ih =>
      intro vs hnd hvs hfresh q hq
      simp only [List.map_cons, List.nodup_cons] at hnd
      simp only [List.foldl_cons] at hq
      by_cases ht : kv.2.truthy = true
      · rw [if_pos ht] at hq
        have hsa : setAdd vs kv.1 kv.2.pyStr = vs ++ [(kv.1, [kv.2.pyStr])] :=
          setAdd_fresh _ (hfresh kv (List.mem_cons_self kv rest))
        refine ih (vs ++ [(kv.1, [kv.2.pyStr])]) hnd.2 ?_ ?_ q (by rw [← hsa]; exact hq)
        · intro p hp
          rcases List.mem_append.1 hp with h | h
          · exact hvs p h
          · simp only [List.mem_singleton] at h
            subst h
            simp
        · intro p hp
          rw [hasKey_append]
          have h1 : ¬ hasKey vs p.1 = true := hfresh p (List.mem_cons_of_mem kv hp)
          have h2 : ¬ hasKey [(kv.1, [kv.2.pyStr])] p.1 = true := by
            intro h
            rw [hasKey_iff_mem] at h
            simp only [List.map_cons, List.map_nil, List.mem_singleton] at h
            exact hnd.1 (h ▸ List.mem_map_of_mem Prod.fst hp)
          simp [h1, h2]
      · rw [if_neg ht] at hq
        exact ih vs hnd.2 hvs (fun p hp => hfresh p (List.mem_cons_of_mem kv hp)) q hq

theorem valueSets_single_short {d : AttrDict} (hnd : (d.map Prod.fst).Nodup) :
    ∀ q ∈ valueSets [d], q.2.length ≤ 1 := by
  intro q hq
  unfold valueSets at hq
  simp only [List.foldl_cons, List.foldl_nil] at hq
  exact valueFold_single_short d [] hnd (by simp) (by intro p _; simp [hasKey, lookupA])
    q hq

theorem addVariations_id :
    ∀ (vs : List (String × List String)) (m : AttrDict),
      (∀ p ∈ vs, ¬ p.2.length > 1) → addVariations vs m = m := by
  intro vs
  induction vs with
  | nil => intro m _; rfl
  | cons p rest ih =>
      intro m h
      simp only [addVariations, List.foldl_cons] at ih ⊢
      rw [if_neg (h p (List.mem_cons_self p rest))]
      exact ih m (fun q hq => h q (List.mem_cons_of_mem p hq))

theorem mergeAttributes_single {d : AttrDict} (hnd : (d.map Prod.fst).Nodup) :
    mergeAttributes [d] = d := by
  unfold mergeAttributes
  rw [if_neg (by simp)]
  rw [addVariations_id _ _ (fun q hq => by
    have := valueSets_single_short hnd q hq
    omega)]
  exact mergeFirstPass_single hnd

theorem nodupKeys_mergeFirstPass (all_attributes : List AttrDict) :
    ((mergeFirstPass all_attributes).map Prod.fst).Nodup := by
  suffices h : ∀ (all : List AttrDict) (m : AttrDict), (m.map Prod.fst).Nodup →
      ((all.foldl
        (fun m attrs => attrs.foldl (fun m kv => insertIfAbsent m kv.1 kv.2) m)
        m).map Prod.fst).Nodup by
    exact h all_attributes [] (by simp)
  intro all
  induction all with
  | nil => intro m h; exact h
  | cons attrs rest ih =>
      intro m h
      simp only [List.foldl_cons]
      refine ih _ ?_
      clear ih
      induction attrs generalizing m with
      | nil => exact h
      | cons kv t ih2 =>
          simp only [List.foldl_cons]
          exact ih2 _ (nodupKeys_insertIfAbsent kv.1 kv.2 h)

theorem nodupKeys_addVariations :
    ∀ (vs : List (String × List String)) (m : AttrDict), (m.map Prod.fst).Nodup →
      ((addVariations vs m).map Prod.fst).Nodup := by
  intro vs
  induction vs with
  | nil => intro m h; exact h
  | cons p rest ih =>
      intro m h
      simp only [addVariations, List.foldl_cons] at ih ⊢
      by_cases hl : p.2.length > 1
      · rw [if_pos hl]
        exact ih _ (nodupKeys_insertOrUpdate _ _ h)
      · rw [if_neg hl]
        exact ih _ h

theorem nodupKeys_mergeAttributes (all_attributes : List AttrDict) :
    ((mergeAttributes all_attributes).map Prod.fst).Nodup := by
  unfold mergeAttributes
  by_cases he : all_attributes = []
  · simp [he]
  · rw [if_neg he]
    exact nodupKeys_addVariations _ _ (nodupKeys_mergeFirstPass all_attributes)

theorem mem_groupOf {l : List Extraction} {k : String × String} {e : Extraction} :
    e ∈ groupOf l k ↔ e ∈ l ∧ identKey e = k := by
  simp [groupOf, List.mem_filter]

theorem mem_dedup_iff {l : List Extraction} {m : Extraction} :
    m ∈ deduplicateExtractions l ↔
      ∃ k ∈ firstOccur (l.map identKey), mergedForGroup (groupOf l k) = some m := by
  simp [deduplicateExtractions, List.mem_filterMap]

theorem mergedForGroup_cons (rep : Extraction) (rest : List Extraction) :
    mergedForGroup (rep :: rest) = some
      (Extraction.mk rep.extraction_class rep.extraction_text
        (PyAttrs.dict (if (rep :: rest).length > 1 then
            insertOrUpdate (mergeAttributes ((rep :: rest).filterMap contribOf))
              "mention_count" (.int ((rep :: rest).length : Int))
          else mergeAttributes ((rep :: rest).filterMap contribOf)))) := rfl

theorem attrsDict_eq {e : Extraction} {d : AttrDict} (h : e.attributes = .dict d) :
    attrsDict e = d := by
  simp [attrsDict, h]

theorem dedup_elem_spec {l : List Extraction} {m : Extraction}
    (hm : m ∈ deduplicateExtractions l) :
    ∃ rep rest, groupOf l (identKey m) = rep :: rest
      ∧ m.extraction_class = rep.extraction_class
      ∧ m.extraction_text = rep.extraction_text
      ∧ m.attributes = .dict
          (if (rep :: rest).length > 1 then
            insertOrUpdate (mergeAttributes ((rep :: rest).filterMap contribOf))
              "mention_count" (.int ((rep :: rest).length : Int))
           else mergeAttributes ((rep :: rest).filterMap contribOf)) := by
  rcases mem_dedup_iff.1 hm with ⟨k, _hk, hmg⟩
  cases hg : groupOf l k with
  | nil => rw [hg] at hmg; cases hmg
  | cons rep rest =>
      rw [hg, mergedForGroup_cons] at hmg
      injection hmg with hmg
      have hrepk : identKey rep = k :=
        (mem_groupOf.1 (hg ▸ List.mem_cons_self rep rest)).2
      have hmk : identKey m = k := by
        rw [← hmg]
        exact hrepk
      refine ⟨rep, rest, ?_, ?_, ?_, ?_⟩
      · rw [hmk, hg]
      · rw [← hmg]
      · rw [← hmg]
      · rw [← hmg]

theorem dedup_attrs_spec {l : List Extraction} {m : Extraction}
    (hm : m ∈ deduplicateExtractions l) :
    m.attributes = .dict (attrsDict m) ∧ ((attrsDict m).map Prod.fst).Nodup := by
  rcases dedup_elem_spec hm with ⟨rep, rest, _, _, _, hattrs⟩
  have hAD := attrsDict_eq hattrs
  refine ⟨by rw [hattrs, hAD], ?_⟩
  rw [hAD]
  by_cases hl : (rep :: rest).length > 1
  · rw [if_pos hl]
    exact nodupKeys_insertOrUpdate _ _ (nodupKeys_mergeAttributes _)
  · rw [if_neg hl]
    exact nodupKeys_mergeAttributes _

theorem mergedForGroup_self {m : Extraction}
    (h1 : m.attributes = .dict (attrsDict m))
    (h2 : ((attrsDict m).map Prod.fst).Nodup) :
    mergedForGroup [m] = some m := by
  rw [mergedForGroup_cons m []]
  simp only [List.length_cons, List.length_nil]
  rw [if_neg (by omega)]
  have hfm : ((m :: []) : List Extraction).filterMap contribOf
      = if attrsDict m = [] then [] else [attrsDict m] := by
    simp only [List.filterMap_cons, List.filterMap_nil]
    have hc : contribOf m = if attrsDict m = [] then none else some (attrsDict m) := by
      unfold contribOf
      rw [h1]
    rw [hc]
    by_cases hd : attrsDict m = [] <;> simp [hd]
  have key : PyAttrs.dict (mergeAttributes (((m :: []) : List Extraction).filterMap
      contribOf)) = m.attributes := by
    rw [hfm]
    by_cases hd : attrsDict m = []
    · rw [if_pos hd, h1, hd]
      rfl
    · rw [if_neg hd, mergeAttributes_single h2, h1]
  rw [key]

theorem dedup_keys_of_sub {l : List Extraction} :
    ∀ ks : List (String × String), (∀ k ∈ ks, k ∈ l.map identKey) →
      ((ks.filterMap (fun k => mergedForGroup (groupOf l k))).map identKey) = ks := by
  intro ks
  induction ks with
  | nil => intro _; rfl
  | cons k kt ih =>
      intro hsub
      have hk : k ∈ l.map identKey := hsub k (List.mem_cons_self k kt)
      rcases List.mem_map.1 hk with ⟨e, he, hek⟩
      have hne : e ∈ groupOf l k := mem_groupOf.2 ⟨he, hek⟩
      cases hg : groupOf l k with
      | nil => rw [hg] at hne; cases hne
      | cons rep rest =>
          simp only [List.filterMap_cons, hg, mergedForGroup_cons]
          have hrepk : identKey rep = k :=
            (mem_groupOf.1 (hg ▸ List.mem_cons_self rep rest)).2
          simp only [List.map_cons]
          rw [ih (fun k' hk' => hsub k' (List.mem_cons_of_mem k hk'))]
          exact congrArg (fun x => x :: kt) hrepk

theorem dedup_map_identKey (l : List Extraction) :
    (deduplicateExtractions l).map identKey = firstOccur (l.map identKey) := by
  unfold deduplicateExtractions
  exact dedup_keys_of_sub _ (fun k hk => mem_firstOccur.1 hk)

theorem groupOf_self_singleton {l : List Extraction}
    (hnd : (l.map identKey).Nodup) {m : Extraction} (hm : m ∈ l) :
    groupOf l (identKey m) = [m] := by
  induction l with
  | nil => cases hm
  | cons a t ih =>
      simp only [List.map_cons, List.nodup_cons] at hnd
      rcases List.mem_cons.1 hm with rfl | hmt
      · unfold groupOf
        simp only [List.filter_cons, decide_eq_true_eq]
        rw [if_pos trivial]
        congr 1
        rw [List.filter_eq_nil_iff]
        intro e het
        simp only [decide_eq_true_eq]
        intro heq
        exact hnd.1 (by rw [← heq]; exact List.mem_map_of_mem identKey het)
      · unfold groupOf
        simp only [List.filter_cons, decide_eq_true_eq]
        have hcond : ¬ identKey a = identKey m := by
          intro heq
          exact hnd.1 (by rw [heq]; exact List.mem_map_of_mem identKey hmt)
        rw [if_neg hcond]
        exact ih hnd.2 hmt

/-- C2: deduplication is idempotent — re-running the deduplicator on
its own output returns the output unchanged (in particular no two
merged entities collide under the identity rule, and the entity count
never shrinks on a second run). -/
theorem c2_dedup_idempotent (l : List Extraction) :
    deduplicateExtractions (deduplicateExtractions l) = deduplicateExtractions l := by
  have hnd : ((deduplicateExtractions l).map identKey).Nodup := by
    rw [dedup_map_identKey l]; exact firstOccur_nodup _
  have hm_spec : ∀ m ∈ deduplicateExtractions l,
      m.attributes = .dict (attrsDict m) ∧ ((attrsDict m).map Prod.fst).Nodup :=
    fun m hm => dedup_attrs_spec hm
  generalize hL : deduplicateExtractions l = L at hnd hm_spec
  show (firstOccur (L.map identKey)).filterMap (fun k => mergedForGroup (groupOf L k)) = L
  rw [firstOccur_eq_self hnd, List.filterMap_map]
  have hpt : ∀ m ∈ L,
      ((fun k => mergedForGroup (groupOf L k)) ∘ identKey) m = some m := by
    intro m hm
    show mergedForGroup (groupOf L (identKey m)) = some m
    rw [groupOf_self_singleton hnd hm]
    obtain ⟨h1, h2⟩ := hm_spec m hm
    exact mergedForGroup_self h1 h2
  rw [List.filterMap_congr hpt]
  exact List.filterMap_some _

/-- C3: the deduplicator emits exactly one merged entity per distinct
(class, trimmed-case-folded-text) identity: the output length is the
number of distinct identities, the output identities are duplicate
free, cover exactly the input identities, appear in first-seen order,
and each merged entity carries the class and original-casing text of
the first entity of its group. -/
theorem c3_one_entity_per_identity (l : List Extraction) :
    (deduplicateExtractions l).length = (l.map identKey).toFinset.card
    ∧ ((deduplicateExtractions l).map identKey).Nodup
    ∧ (∀ k, k ∈ (deduplicateExtractions l).map identKey ↔ k ∈ l.map identKey)
    ∧ ((deduplicateExtractions l).map identKey).Pairwise
        (fun k₁ k₂ => firstIdx (l.map identKey) k₁ < firstIdx (l.map identKey) k₂)
    ∧ (∀ m ∈ deduplicateExtractions l,
        (l.find? (fun e => identKey e = identKey m)).map
            (fun rep => (rep.extraction_class, rep.extraction_text))
          = some (m.extraction_class, m.extraction_text)) := by
  have hkeys := dedup_map_identKey l
  refine ⟨?_, ?_, ?_, ?_, ?_⟩
  · have h1 : (deduplicateExtractions l).length
        = ((deduplicateExtractions l).map identKey).length := (List.length_map _ _).symm
    rw [h1, hkeys]
    have h2 : (firstOccur (l.map identKey)).toFinset = (l.map identKey).toFinset := by
      apply Finset.ext
      intro a
      simp [List.mem_toFinset, mem_firstOccur]
    rw [← h2]
    exact (List.toFinset_card_of_nodup (firstOccur_nodup _)).symm
  · rw [hkeys]; exact firstOccur_nodup _
  · intro k; rw [hkeys, mem_firstOccur]
  · rw [hkeys]; exact firstOccur_pairwise_firstIdx (l.map identKey)
  · intro m hm
    rcases dedup_elem_spec hm with ⟨rep, rest, hg, hc, ht, _⟩
    have hhead : (l.filter (fun e => decide (identKey e = identKey m))).head?
        = some rep := by
      show (groupOf l (identKey m)).head? = some rep
      rw [hg]
      rfl
    have hfind : l.find? (fun e => decide (identKey e = identKey m)) = some rep := by
      rw [← List.filter_head? _ l]
      exact hhead
    rw [hfind]
    simp only [Option.map_some']
    rw [hc, ht]

/-- Witness for C3 at the end-to-end example stream: the merged
speaker entity keeps the first mention's class and casing. -/
theorem c3_one_entity_per_identity_witness :
    (exStream.find? (fun e => identKey e = identKey exMergedSpeaker)).map
        (fun rep => (rep.extraction_class, rep.extraction_text))
      = some (exMergedSpeaker.extraction_class, exMergedSpeaker.extraction_text) :=
  (c3_one_entity_per_identity exStream).2.2.2.2 exMergedSpeaker (by decide)

theorem lookupA_insertIfAbsent_none {β : Type} {m : List (String × β)} {k k' : String}
    {v : β} (h : lookupA m k = none) (hne : k' ≠ k) :
    lookupA (insertIfAbsent m k' v) k = none := by
  unfold insertIfAbsent
  by_cases hk : hasKey m k'
  · rw [if_pos hk]; exact h
  · rw [if_neg hk]
    rw [lookupA_append_of_none h]
    simp [lookupA, hne]

theorem lookupA_insertFold_none {k : String} :
    ∀ (attrs : List (String × AttrVal)) (m : AttrDict),
      (∀ p ∈ attrs, p.1 ≠ k) → lookupA m k = none →
      lookupA (attrs.foldl (fun m kv => insertIfAbsent m kv.1 kv.2) m) k = none := by
  intro attrs
  induction attrs with
  | nil => intro m _ hm; exact hm
  | cons kv t ih =>
      intro m hattrs hm
      simp only [List.foldl_cons]
      refine ih _ (fun p hp => hattrs p (List.mem_cons_of_mem kv hp)) ?_
      exact lookupA_insertIfAbsent_none hm (hattrs kv (List.mem_cons_self kv t))

theorem lookupA_mergeFirstPass_none {all_attributes : List AttrDict} {k : String}
    (h : ∀ d ∈ all_attributes, ∀ p ∈ d, p.1 ≠ k) :
    lookupA (mergeFirstPass all_attributes) k = none := by
  suffices hs : ∀ (all : List AttrDict) (m : AttrDict),
      (∀ d ∈ all, ∀ p ∈ d, p.1 ≠ k) → lookupA m k = none →
      lookupA (all.foldl
        (fun m attrs => attrs.foldl (fun m kv => insertIfAbsent m kv.1 kv.2) m) m)
        k = none by
    exact hs all_attributes [] h rfl
  intro all
  induction all with
  | nil => intro m _ hm; exact hm
  | cons attrs rest ih =>
      intro m hall hm
      simp only [List.foldl_cons]
      refine ih _ (fun d hd p hp => hall d (List.mem_cons_of_mem attrs hd) p hp) ?_
      exact lookupA_insertFold_none attrs m
        (hall attrs (List.mem_cons_self attrs rest)) hm

theorem ne_append_variations (s : String) : ¬ s ++ "_variations" = "mention_count" := by
  intro h
  have hd : s.data ++ "_variations".data = "mention_count".data := by
    cases s with
    | mk l => exact congrArg String.data h
  have hlen : s.data.length = 2 := by
    have h2 := congrArg List.length hd
    rw [List.length_append] at h2
    have e1 : ("_variations".data).length = 11 := rfl
    have e2 : ("mention_count".data).length = 13 := rfl
    omega
  have h3 : (s.data ++ "_variations".data)[2]? = some 'n' := by rw [hd]; rfl
  rw [List.getElem?_append_right (by omega), hlen] at h3
  exact absurd h3 (by decide)

theorem mergeAttributes_lookup_none {all_attributes : List AttrDict} {k : String}
    (hin : ∀ d ∈ all_attributes, ∀ p ∈ d, p.1 ≠ k)
    (hvar : ∀ k' : String, ¬ k' ++ "_variations" = k) :
    lookupA (mergeAttributes all_attributes) k = none := by
  unfold mergeAttributes
  by_cases he : all_attributes = []
  · simp [he, lookupA]
  · rw [if_neg he]
    rw [lookupA_addVariations_ne _ _ _ (fun q _ => hvar q.1)]
    exact lookupA_mergeFirstPass_none hin

/-- C4 (amended): a merged entity of a singleton group carries no
`mention_count` key provided none of the group's contributed attribute
maps itself supplies one (the deduplicator never synthesizes the key
for singleton groups, but an input-supplied `mention_count` attribute
survives the merge); a merged entity of a group with two or more
members always carries `mention_count` equal to the raw group size. -/
theorem c4_mention_count_asymmetry (l : List Extraction) (m : Extraction)
    (hm : m ∈ deduplicateExtractions l) :
    ((groupOf l (identKey m)).length = 1 →
      (∀ e ∈ groupOf l (identKey m), ∀ d, contribOf e = some d →
        lookupA d "mention_count" = none) →
      lookupA (attrsDict m) "mention_count" = none)
    ∧ (1 < (groupOf l (identKey m)).length →
      lookupA (attrsDict m) "mention_count"
        = some (.int ((groupOf l (identKey m)).length : Int))) := by
  rcases dedup_elem_spec hm with ⟨rep, rest, hg, _, _, hattrs⟩
  have hAD := attrsDict_eq hattrs
  constructor
  · intro hlen hnone
    rw [hg] at hlen
    have hrest : rest = [] := by
      have := List.length_cons rep rest ▸ hlen
      exact List.length_eq_zero.1 (by omega)
    subst hrest
    rw [hAD, if_neg (by simp)]
    apply mergeAttributes_lookup_none
    · intro d hd p hp
      simp only [List.filterMap_cons, List.filterMap_nil] at hd
      cases hc : contribOf rep with
      | none => rw [hc] at hd; cases hd
      | some d' =>
          rw [hc] at hd
          simp only [List.mem_singleton] at hd
          subst hd
          have hrepmem : rep ∈ groupOf l (identKey m) := by
            rw [hg]; exact List.mem_cons_self rep []
          have := hnone rep hrepmem d hc
          exact (lookupA_eq_none_iff.1 this) p hp
    · exact ne_append_variations
  · intro hlen
    rw [hg] at hlen
    rw [hAD, if_pos hlen, hg]
    exact lookupA_insertOrUpdate_self _ _ _

/-- Counterexample to C4 as stated: a singleton entity whose input
attributes already contain a `mention_count` key yields a merged
entity whose attributes still contain that key, although its group has
exactly one member. -/
theorem c4_mention_count_asymmetry_counterexample :
    (deduplicateExtractions [exMention]).map
        (fun m => lookupA (attrsDict m) "mention_count")
      = [some (.str "5")]
    ∧ (groupOf [exMention] (identKey exMention)).length = 1 :=
  ⟨by decide, by decide⟩

/-- Witness for the amended C4 at a two-mention group. -/
theorem c4_mention_count_asymmetry_witness :
    lookupA (attrsDict exMergedSpeaker) "mention_count"
      = some (.int ((groupOf [exSpeaker1, exSpeaker2]
          (identKey exMergedSpeaker)).length : Int)) :=
  (c4_mention_count_asymmetry [exSpeaker1, exSpeaker2] exMergedSpeaker
    (by decide)).2 (by decide)

/-- C10: every merged entity's attributes field is a dict (never the
`None`/non-dict shapes raw entities may carry), and a raw entity whose
attributes are `None`, not a dict, or the empty dict contributes no
attribute map to its group's merge while still counting as a mention. -/
theorem c10_attributes_total (l : List Extraction) (e : Extraction)
    (he : e.attributes = PyAttrs.pyNone ∨ e.attributes = PyAttrs.nonDict
      ∨ e.attributes = PyAttrs.dict []) :
    (∀ m ∈ deduplicateExtractions l, m.attributes = PyAttrs.dict (attrsDict m))
    ∧ contribOf e = none
    ∧ (groupOf (l ++ [e]) (identKey e)).filterMap contribOf
        = (groupOf l (identKey e)).filterMap contribOf
    ∧ (groupOf (l ++ [e]) (identKey e)).length = (groupOf l (identKey e)).length + 1 := by
  have hce : contribOf e = none := by
    rcases he with h | h | h <;> simp [contribOf, h]
  refine ⟨fun m hm => (dedup_attrs_spec hm).1, hce, ?_, ?_⟩
  · unfold groupOf
    rw [List.filter_append, List.filterMap_append]
    simp [List.filter_cons, hce]
  · unfold groupOf
    rw [List.filter_append]
    simp [List.filter_cons]

/-- Witness for C10: appending an attribute-less decision entity adds a
mention but no attribute-map contribution. -/
theorem c10_attributes_total_witness :
    contribOf exDecision = none
    ∧ (groupOf ([exSpeaker1] ++ [exDecision]) (identKey exDecision)).length
        = (groupOf [exSpeaker1] (identKey exDecision)).length + 1 :=
  ⟨(c10_attributes_total [exSpeaker1] exDecision (Or.inl rfl)).2.1,
   (c10_attributes_total [exSpeaker1] exDecision (Or.inl rfl)).2.2.2⟩

theorem rfindSpace_none_spec :
    ∀ {l : List Char}, rfindSpace l = none → ∀ i : Nat, l[i]? ≠ some ' ' := by
  intro l
  induction l with
  | nil => intro _ i; simp
  | cons c cs ih =>
      intro h i
      simp only [rfindSpace] at h
      cases hr : rfindSpace cs with
      | some j' => rw [hr] at h; cases h
      | none =>
          rw [hr] at h
          by_cases hc : c = ' '
          · rw [if_pos hc] at h; cases h
          · rw [if_neg hc] at h
            cases i with
            | zero => simpa using hc
            | succ i' => simpa using ih hr i'

theorem rfindSpace_some_spec :
    ∀ {l : List Char} {j : Nat}, rfindSpace l = some j →
      j < l.length ∧ l[j]? = some ' ' ∧ ∀ i : Nat, j < i → l[i]? ≠ some ' ' := by
  intro l
  induction l with
  | nil => intro j h; cases h
  | cons c cs ih =>
      intro j h
      simp only [rfindSpace] at h
      cases hr : rfindSpace cs with
      | some j' =>
          rw [hr] at h
          injection h with h
          subst h
          obtain ⟨h1, h2, h3⟩ := ih hr
          refine ⟨by simpa using Nat.succ_lt_succ h1, by simpa using h2, ?_⟩
          intro i hi
          cases i with
          | zero => omega
          | succ i' =>
              simp only [List.getElem?_cons_succ]
              exact h3 i' (by omega)
      | none =>
          rw [hr] at h
          by_cases hc : c = ' '
          · rw [if_pos hc] at h
            injection h with h
            subst h
            refine ⟨by simp, by simpa using hc, ?_⟩
            intro i hi
            cases i with
            | zero => omega
            | succ i' =>
                simp only [List.getElem?_cons_succ]
                exact rfindSpace_none_spec hr i'
          · rw [if_neg hc] at h; cases h

theorem getElem?_take_lt {l : List Char} {i n : Nat} (h : i < n) :
    (l.take n)[i]? = l[i]? := by
  rw [List.getElem?_take]
  simp [h]

/-- C5 (amended): text of length at most 8000 passes through unchanged;
longer text is cut to a prefix of at most 4000 characters, ending just
before the last space character among positions 3801..3999 when one
exists, and falling back to a hard cut of exactly the first 4000
characters when no space character occurs strictly after index 3800 in
the first 4000 characters. -/
theorem c5_truncation (t : List Char) :
    (t.length ≤ 8000 → truncateForExtract t = t)
    ∧ (8000 < t.length →
        (∃ n, n ≤ 4000 ∧ truncateForExtract t = t.take n)
        ∧ (∀ j, 3800 < j → j < 4000 → t[j]? = some ' ' →
            (∀ i, i < 4000 → j < i → t[i]? ≠ some ' ') →
            truncateForExtract t = t.take j)
        ∧ ((∀ i, i < 4000 → 3800 < i → t[i]? ≠ some ' ') →
            truncateForExtract t = t.take 4000)) := by
  constructor
  · intro h
    unfold truncateForExtract
    rw [if_neg (by omega)]
  · intro h8
    have htr : truncateForExtract t = chunkAndExtract t := by
      unfold truncateForExtract
      rw [if_pos (by omega)]
    have hch : chunkAndExtract t =
        (if t.length > 4000 then
          (if pyRfindSpace (t.take 4000) > (4000 : Int) - 200 then
            t.take (pyRfindSpace (t.take 4000)).toNat
          else t.take 4000)
        else t) := rfl
    have h4 : t.length > 4000 := by omega
    rw [htr, hch, if_pos h4]
    have htake : (t.take 4000).length = 4000 := by
      rw [List.length_take]
      omega
    cases hr : rfindSpace (t.take 4000) with
    | some j =>
        obtain ⟨hj4, hjsp, hjmax⟩ := rfindSpace_some_spec hr
        rw [htake] at hj4
        rw [getElem?_take_lt hj4] at hjsp
        have hpr : pyRfindSpace (t.take 4000) = (j : Int) := by
          unfold pyRfindSpace
          rw [hr]
        rw [hpr]
        by_cases hj38 : 3800 < j
        · rw [if_pos (by omega), Int.toNat_natCast]
          refine ⟨⟨j, by omega, rfl⟩, ?_, ?_⟩
          · intro j' h1 h2 hsp hmax
            have hjj' : j = j' := by
              by_cases hlt : j < j'
              · exact absurd (by rwa [getElem?_take_lt h2])
                  (fun hcon => hjmax j' hlt hcon)
              · by_cases hgt : j' < j
                · exact absurd hjsp (hmax j hj4 hgt)
                · omega
            rw [hjj']
          · intro hno
            exact absurd hjsp (hno j hj4 hj38)
        · rw [if_neg (by omega)]
          refine ⟨⟨4000, by omega, rfl⟩, ?_, fun _ => rfl⟩
          intro j' h1 h2 hsp _
          have : (t.take 4000)[j']? = some ' ' := by rwa [getElem?_take_lt h2]
          exact absurd this (hjmax j' (by omega))
    | none =>
        have hpr : pyRfindSpace (t.take 4000) = -1 := by
          unfold pyRfindSpace
          rw [hr]
        rw [hpr, if_neg (by omega)]
        refine ⟨⟨4000, by omega, rfl⟩, ?_, fun _ => rfl⟩
        intro j' h1 h2 hsp _
        have : (t.take 4000)[j']? = some ' ' := by rwa [getElem?_take_lt h2]
        exact absurd this (rfindSpace_none_spec hr j')

theorem rfindSpace_replicate {c : Char} (h : ¬ c = ' ') :
    ∀ n : Nat, rfindSpace (List.replicate n c) = none := by
  intro n
  induction n with
  | zero => rfl
  | succ n ih => simp only [List.replicate_succ, rfindSpace, ih, if_neg h]

theorem rfindSpace_append_none {l₂ : List Char} (h : rfindSpace l₂ = none) :
    ∀ l₁ : List Char, rfindSpace (l₁ ++ l₂) = rfindSpace l₁ := by
  intro l₁
  induction l₁ with
  | nil => simpa using h
  | cons c cs ih =>
      rw [List.cons_append]
      show (match rfindSpace (cs ++ l₂) with
        | some j => some (j + 1)
        | none => if c = ' ' then some 0 else none) = rfindSpace (c :: cs)
      rw [ih]
      rfl

theorem getElem?_rep_cons_rep (m n : Nat) (c₁ x c₂ : Char) (i : Nat) :
    (List.replicate m c₁ ++ x :: List.replicate n c₂)[i]? =
      if i < m then some c₁
      else if i = m then some x
      else if i < m + n + 1 then some c₂ else none := by
  by_cases h1 : i < m
  · rw [List.getElem?_append_left (by simpa using h1)]
    simp [List.getElem?_replicate, h1]
  · rw [List.getElem?_append_right (by simpa using Nat.le_of_not_lt h1)]
    simp only [List.length_replicate]
    by_cases h2 : i = m
    · subst h2
      simp [h1]
    · have h3 : 0 < i - m := by omega
      rw [if_neg h1, if_neg h2]
      cases hi : i - m with
      | zero => omega
      | succ d =>
          simp only [List.getElem?_cons_succ, List.getElem?_replicate]
          by_cases h4 : d < n
          · rw [if_pos h4, if_pos (by omega)]
          · rw [if_neg h4, if_neg (by omega)]

theorem take_rep_cons_rep {m n k : Nat} {c₁ x c₂ : Char} (h1 : m ≤ k)
    (h2 : k ≤ m + n + 1) (h3 : 0 < k - m) :
    (List.replicate m c₁ ++ x :: List.replicate n c₂).take k =
      List.replicate m c₁ ++ x :: List.replicate (k - m - 1) c₂ := by
  rw [List.take_append_eq_append_take]
  simp only [List.length_replicate, List.take_replicate]
  rw [min_eq_right h1]
  congr 1
  cases hk : k - m with
  | zero => omega
  | succ d =>
      simp only [List.take_succ_cons, List.take_replicate, Nat.succ_sub_one]
      have hd : d ≤ n := by omega
      rw [min_eq_left hd]

/-- Counterexample to C5 as stated: a 10000-character text with a
newline (whitespace, but not a space) at index 3900 — inside the last
200 characters before position 4000 — is hard-cut to exactly 4000
characters, splitting the run of `b`s, because the code searches only
for the space character `' '`. -/
theorem c5_truncation_counterexample :
    exNoSpace.length = 10000
    ∧ exNoSpace[3900]? = some '\n'
    ∧ ('\n'.isWhitespace = true)
    ∧ truncateForExtract exNoSpace = exNoSpace.take 4000
    ∧ (exNoSpace.take 4000).length = 4000
    ∧ exNoSpace[3999]? = some 'b'
    ∧ exNoSpace[4000]? = some 'b' := by
  have hlen : exNoSpace.length = 10000 := by
    unfold exNoSpace
    simp only [List.length_append, List.length_cons, List.length_replicate]
  have htake : exNoSpace.take 4000
      = List.replicate 3900 'a' ++ '\n' :: List.replicate 99 'b' := by
    unfold exNoSpace
    rw [take_rep_cons_rep (by omega) (by omega) (by omega)]
  have hrf : rfindSpace (exNoSpace.take 4000) = none := by
    rw [htake]
    have h99 : rfindSpace ('\n' :: List.replicate 99 'b') = none := by
      have hb : rfindSpace (List.replicate 99 'b') = none :=
        rfindSpace_replicate (by decide) 99
      simp [rfindSpace, hb]
    rw [rfindSpace_append_none h99]
    exact rfindSpace_replicate (by decide) 3900
  have hpr : pyRfindSpace (exNoSpace.take 4000) = -1 := by
    unfold pyRfindSpace
    rw [hrf]
  have htr : truncateForExtract exNoSpace = exNoSpace.take 4000 := by
    unfold truncateForExtract
    rw [if_pos (by omega)]
    have hch : chunkAndExtract exNoSpace =
        (if exNoSpace.length > 4000 then
          (if pyRfindSpace (exNoSpace.take 4000) > (4000 : Int) - 200 then
            exNoSpace.take (pyRfindSpace (exNoSpace.take 4000)).toNat
          else exNoSpace.take 4000)
        else exNoSpace) := rfl
    rw [hch, if_pos (by omega), hpr, if_neg (by omega)]
  refine ⟨hlen, ?_, by decide, htr, ?_, ?_, ?_⟩
  · show (List.replicate 3900 'a' ++ '\n' :: List.replicate 6099 'b')[3900]?
        = some '\n'
    rw [getElem?_rep_cons_rep]
    norm_num
  · rw [List.length_take, hlen]
    omega
  · show (List.replicate 3900 'a' ++ '\n' :: List.replicate 6099 'b')[3999]?
        = some 'b'
    rw [getElem?_rep_cons_rep]
    norm_num
  · show (List.replicate 3900 'a' ++ '\n' :: List.replicate 6099 'b')[4000]?
        = some 'b'
    rw [getElem?_rep_cons_rep]
    norm_num

/-- Witness for the amended C5: the empty text passes through, and a
10000-character text whose only space sits at index 3900 is cut to its
first 3900 characters. -/
theorem c5_truncation_witness :
    truncateForExtract ([] : List Char) = []
    ∧ truncateForExtract exSpace = exSpace.take 3900 := by
  constructor
  · exact (c5_truncation []).1 (by simp)
  · have hlen : exSpace.length = 10000 := by
      unfold exSpace
      simp only [List.length_append, List.length_cons, List.length_replicate]
    refine ((c5_truncation exSpace).2 (by omega)).2.1 3900 (by omega) (by omega) ?_ ?_
    · show (List.replicate 3900 'a' ++ ' ' :: List.replicate 6099 'b')[3900]?
          = some ' '
      rw [getElem?_rep_cons_rep]
      norm_num
    · intro i h1 h2
      show ¬ (List.replicate 3900 'a' ++ ' ' :: List.replicate 6099 'b')[i]?
          = some ' '
      rw [getElem?_rep_cons_rep]
      rw [if_neg (by omega), if_neg (by omega), if_pos (by omega)]
      simp

set_option maxRecDepth 4000 in
/-- Counterexample to C6 as stated: an unknown tag resolves to the
general template, but its category priority map is the empty map, not
the general schema's priority map. -/
theorem c6_registry_counterexample :
    getTemplate "invoice" = GENERAL_TEMPLATE
    ∧ getCategoryOrder "invoice" = []
    ∧ getCategoryOrder "general"
        = [("entity", 1), ("key_point", 2), ("topic", 3), ("statement", 4), ("date", 5)]
    ∧ getCategoryOrder "invoice" ≠ getCategoryOrder "general" := by
  refine ⟨?_, ?_, ?_, ?_⟩ <;> decide

/-- C6 (amended): both registry lookups are total — any tag, known or
unknown, returns without error; an unknown tag resolves to the general
default template, while the category-priority lookup yields the empty
map for unknown tags, under which every class receives the default
rank 999 (it does not fall back to the general schema's priority map). -/
theorem c6_registry_totality (tag : String) (htag : ¬ tag ∈ knownDocTypes) :
    getTemplate tag = GENERAL_TEMPLATE
    ∧ getCategoryOrder tag = []
    ∧ (∀ cls, prioOf (getCategoryOrder tag) cls = 999) := by
  simp only [knownDocTypes, List.mem_cons, List.mem_singleton] at htag
  push_neg at htag
  obtain ⟨h1, h2, h3, h4, h5, h6, -⟩ := htag
  have hT : lookupA TEMPLATES tag = none := by
    simp only [TEMPLATES, lookupA]
    rw [if_neg (fun h => h1 h.symm), if_neg (fun h => h2 h.symm),
      if_neg (fun h => h3 h.symm), if_neg (fun h => h4 h.symm),
      if_neg (fun h => h5 h.symm), if_neg (fun h => h6 h.symm)]
  have hO : lookupA categoryOrders tag = none := by
    simp only [categoryOrders, lookupA]
    rw [if_neg (fun h => h1 h.symm), if_neg (fun h => h2 h.symm),
      if_neg (fun h => h3 h.symm), if_neg (fun h => h4 h.symm),
      if_neg (fun h => h5 h.symm), if_neg (fun h => h6 h.symm)]
  have hco : getCategoryOrder tag = [] := by
    unfold getCategoryOrder
    rw [hO]
    rfl
  refine ⟨?_, hco, ?_⟩
  · unfold getTemplate
    rw [hT]
    rfl
  · intro cls
    rw [hco]
    rfl

/-- Witness for the amended C6 at the unknown tag "invoice". -/
theorem c6_registry_totality_witness :
    getTemplate "invoice" = GENERAL_TEMPLATE
    ∧ getCategoryOrder "invoice" = []
    ∧ prioOf (getCategoryOrder "invoice") "entity" = 999 :=
  ⟨(c6_registry_totality "invoice" (by decide)).1,
   (c6_registry_totality "invoice" (by decide)).2.1,
   (c6_registry_totality "invoice" (by decide)).2.2 "entity"⟩

/-- C7: on the empty entity list, for any document type and any
classification metadata, the synthesizer produces the degenerate but
well-formed payload — the "no significant insights" message, an empty
key-insights list, an empty detailed listing, and a three-paragraph
executive summary whose type-specific sentence and closing paragraph
report all counts as zero. -/
theorem c7_empty_degradation (doc_type : String) (c : ClassificationResult)
    (document_text : String) :
    generateSummary [] doc_type = "No significant insights extracted from the document."
    ∧ generateKeyInsights (groupByClass []) = []
    ∧ detailedSections [] doc_type = []
    ∧ ∃ p2 : String,
        generateExecutiveSummary [] doc_type c document_text =
          ["This document has been classified as a <b>" ++ pyUpper doc_type
              ++ "</b> with " ++ c.confidencePct ++ " confidence. " ++ c.reasoning,
           p2,
           "In total, 0 unique entities were identified across 0 categories, providing a comprehensive understanding of the document's content and context."]
        ∧ p2 ∈ ["The narrative features 0 main character(s) and explores 0 central theme(s). The story presents a compelling narrative with well-defined characters and meaningful themes.",
            "The meeting involved 0 participant(s) and resulted in 0 key decision(s) with 0 action item(s) identified for follow-up.",
            "This research paper presents 0 significant finding(s). The study employs rigorous methodology and contributes valuable insights to the field.",
            "The technical documentation covers 0 component(s) and 0 function(s), providing comprehensive guidance for implementation and usage.",
            "This legal document involves 0 party/parties with 0 defined obligation(s). The document establishes clear terms and responsibilities for all parties involved.",
            "The document contains 0 key entities and insights. Analysis reveals important information across multiple categories."] := by
  refine ⟨rfl, rfl, rfl, ?_⟩
  simp only [generateExecutiveSummary]
  by_cases h1 : doc_type = "story"
  · refine ⟨"The narrative features 0 main character(s) and explores 0 central theme(s). The story presents a compelling narrative with well-defined characters and meaningful themes.",
      ?_, List.mem_cons_self _ _⟩
    rw [if_pos h1]
    rfl
  · rw [if_neg h1]
    by_cases h2 : doc_type = "meeting"
    · refine ⟨"The meeting involved 0 participant(s) and resulted in 0 key decision(s) with 0 action item(s) identified for follow-up.",
        ?_, List.mem_cons_of_mem _ (List.mem_cons_self _ _)⟩
      rw [if_pos h2]
      rfl
    · rw [if_neg h2]
      by_cases h3 : doc_type = "research"
      · refine ⟨"This research paper presents 0 significant finding(s). The study employs rigorous methodology and contributes valuable insights to the field.",
          ?_, List.mem_cons_of_mem _ (List.mem_cons_of_mem _ (List.mem_cons_self _ _))⟩
        rw [if_pos h3]
        rfl
      · rw [if_neg h3]
        by_cases h4 : doc_type = "technical"
        · refine ⟨"The technical documentation covers 0 component(s) and 0 function(s), providing comprehensive guidance for implementation and usage.",
            ?_, List.mem_cons_of_mem _ (List.mem_cons_of_mem _ (List.mem_cons_of_mem _
              (List.mem_cons_self _ _)))⟩
          rw [if_pos h4]
          rfl
        · rw [if_neg h4]
          by_cases h5 : doc_type = "legal"
          · refine ⟨"This legal document involves 0 party/parties with 0 defined obligation(s). The document establishes clear terms and responsibilities for all parties involved.",
              ?_, List.mem_cons_of_mem _ (List.mem_cons_of_mem _ (List.mem_cons_of_mem _
                (List.mem_cons_of_mem _ (List.mem_cons_self _ _))))⟩
            rw [if_pos h5]
            rfl
          · rw [if_neg h5]
            exact ⟨"The document contains 0 key entities and insights. Analysis reveals important information across multiple categories.",
              rfl, List.mem_cons_of_mem _ (List.mem_cons_of_mem _ (List.mem_cons_of_mem _
                (List.mem_cons_of_mem _ (List.mem_cons_of_mem _ (List.mem_cons_self _ _)))))⟩

theorem map_fst_map_pair {α β γ : Type} (g : α × β → γ) (lst : List (α × β)) :
    (lst.map (fun p => (p.1, g p))).map Prod.fst = lst.map Prod.fst := by
  induction lst with
  | nil => rfl
  | cons q t ih => simp [ih]

theorem catOrder_prio_lt {doc_type cls : String} {p : Int}
    (h : lookupA (getCategoryOrder doc_type) cls = some p) : p < 999 := by
  have hmem := lookupA_some_mem h
  unfold getCategoryOrder at hmem
  cases hv : lookupA categoryOrders doc_type with
  | none => rw [hv] at hmem; cases hmem
  | some ord =>
      rw [hv] at hmem
      have hord := lookupA_some_mem hv
      simp only [categoryOrders, List.mem_cons, List.not_mem_nil, or_false] at hord
      rcases hord with h'|h'|h'|h'|h'|h' <;>
        (injection h' with hdt hord2
         subst hord2
         have hp : p ∈ _ := List.mem_map_of_mem Prod.snd hmem
         simp at hp
         omega)

theorem not_hasKey_prioOf {O : List (String × Int)} {cls : String}
    (h : ¬ hasKey O cls = true) : prioOf O cls = 999 := by
  unfold prioOf
  unfold hasKey at h
  cases hv : lookupA O cls with
  | none => rfl
  | some p => rw [hv] at h; simp at h

/-- C8: in the detailed listing the entity classes appear in ascending
schema-priority rank with unranked classes after all ranked ones, and
stable tie-breaking preserves first-encounter order (stated as: the
subsequence of classes at any fixed priority equals the original
first-encounter subsequence); within each class the entities appear in
descending `mention_count` (absent counting as 1), with the
equal-count subsequence equal to the original stream order. -/
theorem c8_detailed_listing_order (l : List Extraction) (doc_type : String) :
    ((detailedSections l doc_type).map Prod.fst).Pairwise
      (fun c₁ c₂ => prioOf (getCategoryOrder doc_type) c₁
        ≤ prioOf (getCategoryOrder doc_type) c₂)
    ∧ ((detailedSections l doc_type).map Prod.fst).Pairwise
      (fun c₁ c₂ => hasKey (getCategoryOrder doc_type) c₂ = true →
        hasKey (getCategoryOrder doc_type) c₁ = true)
    ∧ (∀ p : Int, ((detailedSections l doc_type).map Prod.fst).filter
          (fun c => decide (prioOf (getCategoryOrder doc_type) c = p))
        = (firstOccur (l.map (fun e => e.extraction_class))).filter
          (fun c => decide (prioOf (getCategoryOrder doc_type) c = p)))
    ∧ (∀ cls items, (cls, items) ∈ detailedSections l doc_type →
        items.Pairwise (fun a b => mcVal b ≤ mcVal a)
        ∧ (∀ v : Int, items.filter (fun e => decide (mcVal e = v))
            = (l.filter (fun e => e.extraction_class = cls)).filter
              (fun e => decide (mcVal e = v)))) := by
  have htot₁ : ∀ x y : String × List Extraction,
      decide (prioOf (getCategoryOrder doc_type) x.1
        ≤ prioOf (getCategoryOrder doc_type) y.1) = true
      ∨ decide (prioOf (getCategoryOrder doc_type) y.1
        ≤ prioOf (getCategoryOrder doc_type) x.1) = true := by
    intro x y
    simp only [decide_eq_true_eq]
    exact Int.le_total _ _
  have htrans₁ : ∀ x y z : String × List Extraction,
      decide (prioOf (getCategoryOrder doc_type) x.1
        ≤ prioOf (getCategoryOrder doc_type) y.1) = true →
      decide (prioOf (getCategoryOrder doc_type) y.1
        ≤ prioOf (getCategoryOrder doc_type) z.1) = true →
      decide (prioOf (getCategoryOrder doc_type) x.1
        ≤ prioOf (getCategoryOrder doc_type) z.1) = true := by
    intro x y z
    simp only [decide_eq_true_eq]
    exact Int.le_trans
  have hfst : (detailedSections l doc_type).map Prod.fst =
      (stableSort (fun x y => decide (prioOf (getCategoryOrder doc_type) x.1
        ≤ prioOf (getCategoryOrder doc_type) y.1)) (groupByClass l)).map Prod.fst := by
    simp only [detailedSections]
    exact map_fst_map_pair _ _
  have hpair : ((detailedSections l doc_type).map Prod.fst).Pairwise
      (fun c₁ c₂ => prioOf (getCategoryOrder doc_type) c₁
        ≤ prioOf (getCategoryOrder doc_type) c₂) := by
    rw [hfst]
    refine List.Pairwise.map Prod.fst ?_ (pairwise_stableSort htot₁ htrans₁ _)
    intro a b hab
    simpa using hab
  refine ⟨hpair, ?_, ?_, ?_⟩
  · refine hpair.imp ?_
    intro c₁ c₂ hle hk2
    rcases Option.isSome_iff_exists.1 hk2 with ⟨p, hp⟩
    have hplt : p < 999 := catOrder_prio_lt hp
    by_contra hk1
    have h999 : prioOf (getCategoryOrder doc_type) c₁ = 999 := not_hasKey_prioOf hk1
    have hp2 : prioOf (getCategoryOrder doc_type) c₂ = p := by
      unfold prioOf
      rw [hp]
      rfl
    omega
  · intro p
    rw [hfst, List.filter_map]
    have hstable := filter_key_stableSort
      (r := fun x y : String × List Extraction =>
        decide (prioOf (getCategoryOrder doc_type) x.1
          ≤ prioOf (getCategoryOrder doc_type) y.1))
      (fun x : String × List Extraction => prioOf (getCategoryOrder doc_type) x.1)
      (by
        intro a b hab
        have hab' : prioOf (getCategoryOrder doc_type) a.1
            = prioOf (getCategoryOrder doc_type) b.1 := hab
        simp only [decide_eq_true_eq]
        omega)
      (groupByClass l) p
    have hcomp1 : ((fun c => decide (prioOf (getCategoryOrder doc_type) c = p))
        ∘ (Prod.fst : String × List Extraction → String))
        = (fun x : String × List Extraction =>
            decide (prioOf (getCategoryOrder doc_type) x.1 = p)) := rfl
    rw [hcomp1, hstable]
    unfold groupByClass
    rw [List.filter_map]
    have hcomp2 : ((fun x : String × List Extraction =>
          decide (prioOf (getCategoryOrder doc_type) x.1 = p))
        ∘ (fun c => (c, l.filter (fun e => e.extraction_class = c))))
        = (fun c => decide (prioOf (getCategoryOrder doc_type) c = p)) := rfl
    rw [hcomp2, List.map_map]
    have hcomp3 : ((Prod.fst : String × List Extraction → String)
        ∘ (fun c => (c, l.filter (fun e => e.extraction_class = c)))) = id := rfl
    rw [hcomp3, List.map_id]
  · intro cls items hmem
    unfold detailedSections at hmem
    rcases List.mem_map.1 hmem with ⟨q, hq, hqe⟩
    have hq' : q ∈ groupByClass l :=
      (perm_stableSort _ _).mem_iff.1 hq
    unfold groupByClass at hq'
    rcases List.mem_map.1 hq' with ⟨c', _hc', hcq⟩
    have hq1 : q.1 = c' := by rw [← hcq]
    have hq2 : q.2 = l.filter (fun e => e.extraction_class = c') := by rw [← hcq]
    injection hqe with hqe1 hqe2
    have hcls : cls = c' := by rw [← hqe1, hq1]
    subst hcls
    have hitems : items = stableSort (fun a b => decide (mcVal b ≤ mcVal a))
        (l.filter (fun e => e.extraction_class = cls)) := by
      rw [← hqe2, hq2]
    constructor
    · rw [hitems]
      have hp := pairwise_stableSort
        (r := fun a b : Extraction => decide (mcVal b ≤ mcVal a))
        (by
          intro a b
          simp only [decide_eq_true_eq]
          exact Int.le_total _ _)
        (by
          intro a b c
          simp only [decide_eq_true_eq]
          intro h1 h2
          exact Int.le_trans h2 h1)
        (l.filter (fun e => e.extraction_class = cls))
      refine hp.imp ?_
      intro a b hab
      simpa using hab
    · intro v
      rw [hitems]
      exact filter_key_stableSort
        (r := fun a b : Extraction => decide (mcVal b ≤ mcVal a))
        (fun e => mcVal e)
        (by
          intro a b hab
          have hab' : mcVal a = mcVal b := hab
          simp only [decide_eq_true_eq]
          omega)
        (l.filter (fun e => e.extraction_class = cls)) v

/-- Witness for C8 at the specification's ordering example: the
speaker section precedes the decision section although the decision
entity arrived first, and the speaker bucket is the original filter of
the stream. -/
theorem c8_detailed_listing_order_witness :
    exListingSpeakerItems.filter (fun e => decide (mcVal e = 2))
      = ((exListing.filter (fun e => e.extraction_class = "speaker")).filter
          (fun e => decide (mcVal e = 2)))
    ∧ ((detailedSections exListing "meeting").map Prod.fst).filter
        (fun c => decide (prioOf (getCategoryOrder "meeting") c = 1))
      = (firstOccur (exListing.map (fun e => e.extraction_class))).filter
        (fun c => decide (prioOf (getCategoryOrder "meeting") c = 1)) :=
  ⟨((c8_detailed_listing_order exListing "meeting").2.2.2 "speaker"
      exListingSpeakerItems (by decide)).2 2,
   (c8_detailed_listing_order exListing "meeting").2.2.1 1⟩
